import Mathlib

/-!
Verification of the FYGo Go rules engine.

The repository contains two drafts of the engine:
* `src/irrBoard.py` — the irregular-board variant (`GoBoard` with a playability
  mask, simplified one-ply ko check, pass tracking, snapshot undo/redo);
* `src/main.py` — the regular square-board variant (`GoBoard` keyed on `size`,
  a legacy "same as own last move" legality check, no ko check).

Both are shallowly embedded below.  Coordinates are modelled as `Int` (Python
ints; neighbour offsets may be negative), the per-cell stone values as `Nat`
(0 empty, 1 black, 2 white), grids as `List (List Nat)` (Python lists of
lists), and Python dictionaries with fixed keys as separate record fields.
All guarded grid reads in the source happen in bounds, so reads are embedded
with a default value of 0 / `[]`; writes out of range are no-ops, which is
only exercised on states the source can never build.  Python float
arithmetic in the influence computation only ever manipulates dyadic
rationals with tiny exponents (64 * 0.5**d for d <= 6 and sums of a few
thousand such values), where IEEE doubles are exact, so it is embedded as
exact rational (`ℚ`) arithmetic.
-/

/-- Row-major list of all `(r, c)` with `r < rows`, `c < cols`
(the Python `for r in range(rows): for c in range(cols)` scan). -/
def cellsN (rows cols : Nat) : List (Nat × Nat) :=
  (List.range rows).flatMap fun r => (List.range cols).map fun c => (r, c)

/-- Same scan with the coordinates coerced to `Int`. -/
def cellsI (rows cols : Nat) : List (Int × Int) :=
  (cellsN rows cols).map fun rc => ((rc.1 : Int), (rc.2 : Int))

/-- Read a cell of a grid, with a default for out-of-range coordinates.
The source only reads cells after a bounds check, so the default is
never observed on source-reachable accesses. -/
def cellD (g : List (List α)) (r c : Int) (d : α) : α :=
  (g.getD r.toNat []).getD c.toNat d

/-- Read a stone value (`board[r][c]`); empty cells are 0. -/
def getCellI (g : List (List Nat)) (r c : Int) : Nat :=
  cellD g r c 0

/-- Write a stone value (`board[r][c] = v`).  Out-of-range writes are
no-ops (the source always writes in bounds). -/
def setCellI (g : List (List Nat)) (r c : Int) (v : Nat) : List (List Nat) :=
  g.set r.toNat ((g.getD r.toNat []).set c.toNat v)

/-- The four orthogonal neighbour offsets, in the source's order. -/
def neighborOffsets : List (Int × Int) := [(-1, 0), (1, 0), (0, -1), (0, 1)]

/-- The four orthogonal neighbours of a cell, in the source's order
(the `for dr, dc in [(-1,0),(1,0),(0,-1),(0,1)]` loop). -/
def nbrsOf (y : Int × Int) : List (Int × Int) :=
  neighborOffsets.map fun d => (y.1 + d.1, y.2 + d.2)

/-- The liberties one `check_liberty` loop iteration counts at a popped
cell: its valid empty neighbours. -/
def foundCount (valid : Int → Int → Bool) (board : List (List Nat))
    (y : Int × Int) : Nat :=
  ((nbrsOf y).filter fun x => valid x.1 x.2 && (getCellI board x.1 x.2 == 0)).length

/-- The cells one `check_liberty` loop iteration enqueues at a popped
cell: its valid neighbours carrying the searched colour (the `elif`
keeps empty cells out). -/
def nextList (valid : Int → Int → Bool) (board : List (List Nat)) (player : Nat)
    (y : Int × Int) : List (Int × Int) :=
  (nbrsOf y).filter fun x =>
    valid x.1 x.2 && !(getCellI board x.1 x.2 == 0) &&
      (getCellI board x.1 x.2 == player)

/-- One step of the `check_liberty` breadth-first search, shared by both
drafts (they differ only in the validity predicate `valid`).  The Python
loop `while queue:` pops the queue head, skips visited cells, counts an
adjacent valid empty cell as a liberty and enqueues adjacent valid
same-coloured stones.  `fuel` bounds the number of loop iterations; it is
an embedding artefact (the Python loop terminates because `visited` only
grows), and `libertySearch_fuel_sufficient` below shows the fuel used by
`check_libertyP` is never exhausted. -/
def libertySearch (valid : Int → Int → Bool) (board : List (List Nat)) (player : Nat) :
    Nat → Finset (Int × Int) → List (Int × Int) → Nat → Option Nat
  | fuel, visited, queue, libs =>
    match queue with
    | [] => some libs
    | (r, c) :: rest =>
      match fuel with
      | 0 => none
      | fuel + 1 =>
        if (r, c) ∈ visited then
          libertySearch valid board player fuel visited rest libs
        else
          libertySearch valid board player fuel (insert (r, c) visited)
            (rest ++ nextList valid board player (r, c))
            (libs + foundCount valid board (r, c))

/-- The `check_liberty(row, col, player)` method, parametrised by the
validity predicate (mask-based in `irrBoard.py`, bounds-only in
`main.py`).  Returns `liberties > 0`. -/
def check_libertyP (rows cols : Nat) (valid : Int → Int → Bool)
    (board : List (List Nat)) (row col : Int) (player : Nat) : Bool :=
  match libertySearch valid board player (5 * (rows * cols + 1) + 5)
      ∅ [(row, col)] 0 with
  | some libs => decide (0 < libs)
  | none => false

namespace IrrBoard

/-- State of `GoBoard` from `src/irrBoard.py` (`__init__`).  The
`captured` dict and the `last_moves` dict are split into one field per
key.  `base_power` is carried as a field like in the source. -/
structure GoBoard where
  rows : Nat
  cols : Nat
  board_mask : List (List Nat)
  board : List (List Nat)
  captured_black : Nat
  captured_white : Nat
  current_player : Nat
  last_moves_1 : Option (Int × Int)
  last_moves_2 : Option (Int × Int)
  influence_cache : Option (List (List Int))
  base_power : Int
  move_order : List (Int × Int × Nat)
  prev_board : Option (List (List Nat))
  prev_prev_board : Option (List (List Nat))
  consecutive_passes : Nat
deriving DecidableEq, Repr

/-- The `GoBoard(board_mask)` constructor. -/
def mkGoBoard (board_mask : List (List Nat)) : GoBoard :=
  let rows := board_mask.length
  let cols := if board_mask.length > 0 then (board_mask.headD []).length else 0
  { rows := rows
    cols := cols
    board_mask := board_mask
    board := List.replicate rows (List.replicate cols 0)
    captured_black := 0
    captured_white := 0
    current_player := 1
    last_moves_1 := none
    last_moves_2 := none
    influence_cache := none
    base_power := 64
    move_order := []
    prev_board := none
    prev_prev_board := none
    consecutive_passes := 0 }

/-- The `is_valid_position` predicate on the raw data it reads:
in bounds and the mask marks the cell playable. -/
def is_valid_positionP (rows cols : Nat) (board_mask : List (List Nat))
    (row col : Int) : Bool :=
  decide (0 ≤ row) && decide (row < rows) && decide (0 ≤ col) &&
    decide (col < cols) && (getCellI board_mask row col == 1)

/-- `GoBoard.is_valid_position(row, col)`. -/
def GoBoard.is_valid_position (s : GoBoard) (row col : Int) : Bool :=
  is_valid_positionP s.rows s.cols s.board_mask row col

/-- `GoBoard.check_liberty(row, col, player)` (reads `self.board`,
bounds and mask). -/
def GoBoard.check_liberty (s : GoBoard) (row col : Int) (player : Nat) : Bool :=
  check_libertyP s.rows s.cols (is_valid_positionP s.rows s.cols s.board_mask)
    s.board row col player

/-- The board after `self.board[row][col] = player` inside `place_stone`. -/
def GoBoard.placedBoard (s : GoBoard) (row col : Int) (player : Nat) :
    List (List Nat) :=
  setCellI s.board row col player

/-- The `dead_opponents` list of `place_stone`: the full-board row-major
scan collecting opposing stones whose `check_liberty` (run on the board
with the new stone placed) fails. -/
def GoBoard.deadOpponents (s : GoBoard) (row col : Int) (player : Nat) :
    List (Int × Int) :=
  let pb := s.placedBoard row col player
  let opponent := 3 - player
  (cellsI s.rows s.cols).filter fun x =>
    (getCellI pb x.1 x.2 == opponent) &&
      !(check_libertyP s.rows s.cols
          (is_valid_positionP s.rows s.cols s.board_mask) pb x.1 x.2 opponent)

/-- The board after the dead opposing stones are removed. -/
def GoBoard.boardAfterCaptures (s : GoBoard) (row col : Int) (player : Nat) :
    List (List Nat) :=
  (s.deadOpponents row col player).foldl
    (fun b x => setCellI b x.1 x.2 0) (s.placedBoard row col player)

/-- The `has_liberty` recheck of the just-placed stone's own group,
run on the board after captures. -/
def GoBoard.hasLibertyAfter (s : GoBoard) (row col : Int) (player : Nat) : Bool :=
  check_libertyP s.rows s.cols (is_valid_positionP s.rows s.cols s.board_mask)
    (s.boardAfterCaptures row col player) row col player

/-- The state committed by `place_stone`'s success path: board after
captures, `captured['black' if opponent == 1 else 'white']` incremented
once per removed stone, previous-board grids shifted, this player's
last move and the move log recorded, turn handed over, influence cache
cleared, pass counter reset. -/
def GoBoard.successState (s : GoBoard) (row col : Int) (player : Nat) : GoBoard :=
  let opponent := 3 - player
  let dead := s.deadOpponents row col player
  { s with
    board := s.boardAfterCaptures row col player
    captured_black :=
      if opponent == 1 then s.captured_black + dead.length else s.captured_black
    captured_white :=
      if opponent == 2 then s.captured_white + dead.length else s.captured_white
    prev_prev_board := s.prev_board
    prev_board := some s.board
    last_moves_1 := if player == 1 then some (row, col) else s.last_moves_1
    last_moves_2 := if player == 2 then some (row, col) else s.last_moves_2
    move_order := s.move_order ++ [(row, col, player)]
    current_player := 3 - player
    influence_cache := none
    consecutive_passes := 0 }

/-- `GoBoard.place_stone(row, col, player)`.  Returns the Python result
(`True` accepted / `False` rejected) paired with the state after the
call.  Every rejection path of the source either returns before any
mutation or restores `board` and `captured` from the snapshot taken at
entry while no other attribute was touched, so each rejection returns
the entry state unchanged. -/
def GoBoard.place_stone (s : GoBoard) (row col : Int) (player : Nat) :
    Bool × GoBoard :=
  if !(s.is_valid_position row col) || !(getCellI s.board row col == 0) then
    (false, s)
  else if !(s.hasLibertyAfter row col player) &&
      (s.deadOpponents row col player).length == 0 then
    (false, s)
  else if s.prev_board == some (s.boardAfterCaptures row col player) then
    (false, s)
  else
    (true, s.successState row col player)

/-- `GoBoard.pass_turn()`. -/
def GoBoard.pass_turn (s : GoBoard) : GoBoard :=
  { s with
    consecutive_passes := s.consecutive_passes + 1
    current_player := 3 - s.current_player }

/-- `GoBoard.is_game_over()`. -/
def GoBoard.is_game_over (s : GoBoard) : Bool :=
  decide (s.consecutive_passes ≥ 2)

/-- A snapshot as built by `GoBoard.get_snapshot`: deep copies of
`board`, `captured`, `current_player`, `last_moves` and `move_order`
(and nothing else). -/
structure Snapshot where
  board : List (List Nat)
  captured_black : Nat
  captured_white : Nat
  current_player : Nat
  last_moves_1 : Option (Int × Int)
  last_moves_2 : Option (Int × Int)
  move_order : List (Int × Int × Nat)
deriving DecidableEq, Repr

/-- `GoBoard.get_snapshot()`. -/
def GoBoard.get_snapshot (s : GoBoard) : Snapshot :=
  { board := s.board
    captured_black := s.captured_black
    captured_white := s.captured_white
    current_player := s.current_player
    last_moves_1 := s.last_moves_1
    last_moves_2 := s.last_moves_2
    move_order := s.move_order }

/-- `GoBoard.set_snapshot(snapshot)`: overwrite the five snapshot
fields and clear the influence cache; every other attribute
(`prev_board`, `prev_prev_board`, `consecutive_passes`, ...) is kept. -/
def GoBoard.set_snapshot (s : GoBoard) (snap : Snapshot) : GoBoard :=
  { s with
    board := snap.board
    captured_black := snap.captured_black
    captured_white := snap.captured_white
    current_player := snap.current_player
    last_moves_1 := snap.last_moves_1
    last_moves_2 := snap.last_moves_2
    move_order := snap.move_order
    influence_cache := none }

/-- Python's `round` (banker's rounding, half to even) on an exact
rational, as applied by `int(round(val))` to each influence cell. -/
def pyRound (q : ℚ) : Int :=
  let f := ⌊q⌋
  if q - f < 1 / 2 then f
  else if (1 : ℚ) / 2 < q - f then f + 1
  else if f % 2 = 0 then f else f + 1

/-- `influence[r][c] += v` (in-range by the validity guard at every
call site in the source). -/
def addInfluence (g : List (List ℚ)) (r c : Nat) (v : ℚ) : List (List ℚ) :=
  g.set r ((g.getD r []).set c (((g.getD r []).getD c 0) + v))

/-- The values of Python's `range(-3, 4)`. -/
def influenceSpan : List Int := [-3, -2, -1, 0, 1, 2, 3]

/-- The row-major offsets of the nested `for dr in range(-3, 4): for dc
in range(-3, 4)` loops of `irrBoard.py`'s `calculate_influence`. -/
def influenceOffsets : List (Int × Int) :=
  influenceSpan.flatMap fun dr => influenceSpan.map fun dc => (dr, dc)

/-- The body of the inner offsets loop of `calculate_influence`: add
`base * 0.5 ** (abs dr + abs dc)` at `(r + dr, c + dc)` when that
target is a valid position. -/
def influenceAddForStone (s : GoBoard) (r c : Nat) (base : ℚ)
    (g2 : List (List ℚ)) (d : Int × Int) : List (List ℚ) :=
  let nr : Int := (r : Int) + d.1
  let nc : Int := (c : Int) + d.2
  if is_valid_positionP s.rows s.cols s.board_mask nr nc then
    addInfluence g2 nr.toNat nc.toNat (base * (1 / 2) ^ (d.1.natAbs + d.2.natAbs))
  else g2

/-- The body of the outer per-cell loop of `calculate_influence`: skip
empty cells, otherwise radiate the stone's signed base power over the
offset window. -/
def influenceStoneLoop (s : GoBoard) (g : List (List ℚ)) (rc : Nat × Nat) :
    List (List ℚ) :=
  let stone := getCellI s.board (rc.1 : Int) (rc.2 : Int)
  if stone == 0 then g
  else
    let base : ℚ := if stone == 1 then (s.base_power : ℚ) else -(s.base_power : ℚ)
    influenceOffsets.foldl (influenceAddForStone s rc.1 rc.2 base) g

/-- The influence grid as recomputed by `calculate_influence` when the
cache is empty: every stone radiates `base * 0.5 ** (abs dr + abs dc)`
to each valid cell at offset `(dr, dc)` with `dr, dc ∈ range(-3, 4)`;
each cell's total is then rounded (`int(round(val))`). -/
def GoBoard.computeInfluence (s : GoBoard) : List (List Int) :=
  let influenceQ := (cellsN s.rows s.cols).foldl (influenceStoneLoop s)
    (List.replicate s.rows (List.replicate s.cols (0 : ℚ)))
  influenceQ.map fun row => row.map pyRound

/-- `GoBoard.calculate_influence()`: return the cache when present,
otherwise compute, cache and return. -/
def GoBoard.calculate_influence (s : GoBoard) : List (List Int) × GoBoard :=
  match s.influence_cache with
  | some g => (g, s)
  | none =>
    let g := s.computeInfluence
    (g, { s with influence_cache := some g })

/-- The engine-facing state of `GoGame` from `irrBoard.py`: the live
board plus the undo history and redo stack of snapshots.  The
presentation fields (window, fonts, surfaces) are out of the engine's
scope.  Python appends and pops snapshots at the end of the `history`
list; here the head of the list is that end (most recent snapshot
first), so the initial snapshot is the last element. -/
structure GoGame where
  go_board : GoBoard
  history : List Snapshot
  redo_stack : List Snapshot
deriving DecidableEq, Repr

/-- `GoGame.__init__`: a fresh board whose initial snapshot seeds the
history. -/
def mkGoGame (board_mask : List (List Nat)) : GoGame :=
  let b := mkGoBoard board_mask
  { go_board := b, history := [b.get_snapshot], redo_stack := [] }

/-- The board-mutating core of `GoGame.handle_click`: place a stone for
the current player; on acceptance append a snapshot to the history and
clear the redo stack, otherwise change nothing. -/
def GoGame.placeAt (g : GoGame) (row col : Int) : GoGame :=
  match g.go_board.place_stone row col g.go_board.current_player with
  | (ok, b2) =>
    if ok then
      { go_board := b2, history := b2.get_snapshot :: g.history, redo_stack := [] }
    else
      { g with go_board := b2 }

/-- The right-click handler of `GoGame.run`: `pass_turn`, then append a
snapshot and clear the redo stack. -/
def GoGame.passAction (g : GoGame) : GoGame :=
  let b := g.go_board.pass_turn
  { go_board := b, history := b.get_snapshot :: g.history, redo_stack := [] }

/-- `GoGame.undo_move`: when more than the initial snapshot remains,
pop the top onto the redo stack and restore the new top. -/
def GoGame.undo_move (g : GoGame) : GoGame :=
  match g.history with
  | top :: prev :: rest =>
    { go_board := g.go_board.set_snapshot prev
      history := prev :: rest
      redo_stack := top :: g.redo_stack }
  | _ => g

/-- `GoGame.redo_move`: when the redo stack is non-empty, pop it, push
it back onto the history and restore it. -/
def GoGame.redo_move (g : GoGame) : GoGame :=
  match g.redo_stack with
  | top :: rest =>
    { go_board := g.go_board.set_snapshot top
      history := top :: g.history
      redo_stack := rest }
  | [] => g

/-- A game action issued to the engine by the adapter: a placement
attempt at a coordinate, or a pass. -/
inductive Action where
  | place (row col : Int)
  | pass
deriving DecidableEq, Repr

/-- Apply one action to the game (placements use the current player,
as `handle_click` does). -/
def GoGame.applyAction (g : GoGame) : Action → GoGame
  | Action.place row col => g.placeAt row col
  | Action.pass => g.passAction

/-- Apply a list of actions in order. -/
def GoGame.applyActions (g : GoGame) : List Action → GoGame
  | [] => g
  | a :: rest => (g.applyAction a).applyActions rest

/-- Check that every placement in the action list is accepted by
`place_stone` when reached (passes are always accepted). -/
def GoGame.acceptedRun (g : GoGame) : List Action → Bool
  | [] => true
  | Action.place row col :: rest =>
    (g.go_board.place_stone row col g.go_board.current_player).1 &&
      (g.applyAction (Action.place row col)).acceptedRun rest
  | Action.pass :: rest => (g.applyAction Action.pass).acceptedRun rest

/-- `undo_move` iterated. -/
def undoN : Nat → GoGame → GoGame
  | 0, g => g
  | k + 1, g => undoN k g.undo_move

/-- `redo_move` iterated. -/
def redoN : Nat → GoGame → GoGame
  | 0, g => g
  | k + 1, g => redoN k g.redo_move

end IrrBoard

namespace MainBoard

/-- State of `GoBoard` from `src/main.py` (`__init__`): a square board
of side `size`, no mask, no ko tracking, no pass counter. -/
structure GoBoard where
  size : Nat
  board : List (List Nat)
  captured_black : Nat
  captured_white : Nat
  current_player : Nat
  last_moves_1 : Option (Int × Int)
  last_moves_2 : Option (Int × Int)
  influence_cache : Option (List (List Int))
  base_power : Int
  move_order : List (Int × Int × Nat)
deriving DecidableEq, Repr

/-- The `GoBoard(size)` constructor of `main.py`. -/
def mkGoBoard (size : Nat) : GoBoard :=
  { size := size
    board := List.replicate size (List.replicate size 0)
    captured_black := 0
    captured_white := 0
    current_player := 1
    last_moves_1 := none
    last_moves_2 := none
    influence_cache := none
    base_power := 64
    move_order := [] }

/-- The in-bounds test `0 <= nr < size and 0 <= nc < size` used by
`main.py`'s `check_liberty` (this draft has no mask). -/
def boundsValid (size : Nat) (r c : Int) : Bool :=
  decide (0 ≤ r) && decide (r < size) && decide (0 ≤ c) && decide (c < size)

/-- `self.last_moves[player]` for the two keys of the dict. -/
def GoBoard.lastMoveOf (s : GoBoard) (player : Nat) : Option (Int × Int) :=
  if player == 1 then s.last_moves_1 else s.last_moves_2

/-- `GoBoard.check_liberty(row, col, player)` of `main.py`. -/
def GoBoard.check_liberty (s : GoBoard) (row col : Int) (player : Nat) : Bool :=
  check_libertyP s.size s.size (boundsValid s.size) s.board row col player

/-- `GoBoard.is_valid_move(row, col, player)` of `main.py`: reject when
the cell is occupied, or when `(row, col)` equals this player's own
recorded last move; otherwise simulate the placement with captures on a
board copy and report whether the placed group then has a liberty. -/
def GoBoard.is_valid_move (s : GoBoard) (row col : Int) (player : Nat) : Bool :=
  if !(getCellI s.board row col == 0) then false
  else if s.lastMoveOf player == some (row, col) then false
  else
    let pb := setCellI s.board row col player
    let opponent := 3 - player
    let dead := (cellsI s.size s.size).filter fun x =>
      (getCellI pb x.1 x.2 == opponent) &&
        !(check_libertyP s.size s.size (boundsValid s.size) pb x.1 x.2 opponent)
    let b2 := dead.foldl (fun b x => setCellI b x.1 x.2 0) pb
    check_libertyP s.size s.size (boundsValid s.size) b2 row col player

/-- `GoBoard.remove_dead_stones(player)` of `main.py`: remove every
stone of colour `player` without a liberty, incrementing
`captured['black' if player == 1 else 'white']` once per stone, and
clear the influence cache. -/
def GoBoard.remove_dead_stones (s : GoBoard) (player : Nat) : GoBoard :=
  let dead := (cellsI s.size s.size).filter fun x =>
    (getCellI s.board x.1 x.2 == player) &&
      !(check_libertyP s.size s.size (boundsValid s.size) s.board x.1 x.2 player)
  { s with
    board := dead.foldl (fun b x => setCellI b x.1 x.2 0) s.board
    captured_black :=
      if player == 1 then s.captured_black + dead.length else s.captured_black
    captured_white :=
      if player == 2 then s.captured_white + dead.length else s.captured_white
    influence_cache := none }

/-- `GoBoard.place_stone(row, col, player)` of `main.py`: gate on
`is_valid_move`, then place, remove the opponent's dead stones, record
the move and hand the turn over. -/
def GoBoard.place_stone (s : GoBoard) (row col : Int) (player : Nat) :
    Bool × GoBoard :=
  if !(s.is_valid_move row col player) then (false, s)
  else
    let s1 := { s with board := setCellI s.board row col player }
    let s2 := s1.remove_dead_stones (3 - player)
    (true,
      { s2 with
        last_moves_1 := if player == 1 then some (row, col) else s.last_moves_1
        last_moves_2 := if player == 2 then some (row, col) else s.last_moves_2
        move_order := s.move_order ++ [(row, col, player)]
        current_player := 3 - player
        influence_cache := none })

end MainBoard

namespace IrrBoard

/-- Board states reachable over a game's lifetime: a fresh board, an
accepted placement by the player to move, or a pass. -/
inductive Reach : GoBoard → Prop where
  | init (board_mask : List (List Nat)) : Reach (mkGoBoard board_mask)
  | place (s s2 : GoBoard) (row col : Int) : Reach s →
      s.place_stone row col s.current_player = (true, s2) → Reach s2
  | pass (s : GoBoard) : Reach s → Reach s.pass_turn

/-- Number of stones of colour `v` on a board. -/
def countStones (b : List (List Nat)) (v : Nat) : Nat :=
  (b.map fun row => row.count v).sum

/-- Every call to `place_stone` either rejects and returns the entry
state unchanged, or accepts and returns the committed success state. -/
theorem GoBoard.place_stone_cases (s : GoBoard) (row col : Int) (player : Nat) :
    s.place_stone row col player = (false, s) ∨
      s.place_stone row col player = (true, s.successState row col player) := by
  unfold GoBoard.place_stone
  split
  · exact Or.inl rfl
  · split
    · exact Or.inl rfl
    · split
      · exact Or.inl rfl
      · exact Or.inr rfl

/-- Inversion for an accepted placement. -/
theorem GoBoard.place_stone_true_inv (s s2 : GoBoard) (row col : Int) (player : Nat)
    (h : s.place_stone row col player = (true, s2)) :
    s2 = s.successState row col player := by
  rcases s.place_stone_cases row col player with hc | hc <;> rw [hc] at h
  · simp at h
  · exact ((Prod.mk.injEq _ _ _ _).mp h).2.symm

/-- A fully playable 1-row, 3-column strip. -/
def maskRow3 : List (List Nat) := [[1, 1, 1]]

/-- A fully playable 1-row, 2-column strip. -/
def maskRow2 : List (List Nat) := [[1, 1]]

/-- A fully playable 3x3 board. -/
def mask3x3 : List (List Nat) := [[1, 1, 1], [1, 1, 1], [1, 1, 1]]

/-- A state where Black playing (0,0) is suicide: the placed stone's
only neighbour holds a live white stone. -/
def exSuicide : GoBoard := { mkGoBoard maskRow3 with board := [[0, 2, 0]] }

/-- A state where Black playing (0,1) captures the white stone at (0,2)
but recreates `prev_board`, so the one-ply ko check fires. -/
def exKo : GoBoard :=
  { mkGoBoard maskRow3 with board := [[1, 0, 2]], prev_board := some [[1, 1, 0]] }

/-- A state with a stone at (0,0), used for rejection-outcome checks. -/
def exOccupied : GoBoard :=
  { mkGoBoard maskRow3 with board := [[1, 0, 0]] }

/-- C1: a placement whose placed group has no liberty after opponent
captures and which captured nothing is rejected as suicide: the call
returns `False` and the state after the call — in particular `stones`
(`board`), the `captured` counters, `current_player` and the move log
(`move_order`) — is exactly the entry state. -/
theorem suicide_rejection_state_unchanged (s : GoBoard) (row col : Int) (player : Nat)
    (hvalid : s.is_valid_position row col = true)
    (hempty : getCellI s.board row col = 0)
    (hnocap : s.deadOpponents row col player = [])
    (hnolib : s.hasLibertyAfter row col player = false) :
    s.place_stone row col player = (false, s) := by
  simp [GoBoard.place_stone, hvalid, hempty, hnocap, hnolib]

/-- Witness for C1: on the 1x3 strip `[0, 2, 0]`, Black at (0,0) is a
suicide and the state is returned unchanged. -/
theorem suicide_rejection_state_unchanged_witness :
    exSuicide.place_stone 0 0 1 = (false, exSuicide) :=
  suicide_rejection_state_unchanged exSuicide 0 0 1
    (by decide) (by decide) (by decide) (by decide)

/-- C2: for a placement that passes the playability, occupancy and
suicide checks, `place_stone` rejects — returning `False` with the
state exactly as before the attempt — if and only if the board after
placement and captures is identical to `previous_stones`
(`prev_board`); the comparison involves only the single grid
`prev_board`, i.e. one ply back. -/
theorem ko_rejection_iff (s : GoBoard) (row col : Int) (player : Nat)
    (hvalid : s.is_valid_position row col = true)
    (hempty : getCellI s.board row col = 0)
    (hnosuicide : ¬(s.hasLibertyAfter row col player = false ∧
      s.deadOpponents row col player = [])) :
    (s.place_stone row col player = (false, s) ↔
      s.prev_board = some (s.boardAfterCaptures row col player)) := by
  have hguard : (!(s.hasLibertyAfter row col player) &&
      ((s.deadOpponents row col player).length == 0)) = false := by
    cases hl : s.hasLibertyAfter row col player
    · have hd : s.deadOpponents row col player ≠ [] := fun hh => hnosuicide ⟨hl, hh⟩
      simp [List.length_eq_zero, hd]
    · simp
  have h1 : s.place_stone row col player =
      if s.prev_board == some (s.boardAfterCaptures row col player) then (false, s)
      else (true, s.successState row col player) := by
    simp [GoBoard.place_stone, hvalid, hempty, hguard]
  rw [h1]
  by_cases hko : s.prev_board = some (s.boardAfterCaptures row col player) <;>
    simp [hko]

/-- Witness for C2: on the 1x3 strip `[1, 0, 2]` with
`prev_board = [[1, 1, 0]]`, Black at (0,1) captures the white stone,
recreates the previous grid and is rejected with the state unchanged. -/
theorem ko_rejection_iff_witness :
    exKo.place_stone 0 1 1 = (false, exKo) :=
  (ko_rejection_iff exKo 0 1 1 (by decide) (by decide) (by decide)).mpr (by decide)

/-- C7 counterexample: rejections are not reported as outcomes that
distinguish the rejection reasons — an occupied-cell rejection at
(0,0) and an out-of-bounds rejection at (5,5) of the very same state
return the identical result (`False` with the unchanged state). -/
theorem rejection_outcomes_identical :
    exOccupied.place_stone 0 0 2 = exOccupied.place_stone 5 5 2 ∧
    exOccupied.is_valid_position 0 0 = true ∧ getCellI exOccupied.board 0 0 ≠ 0 ∧
    exOccupied.is_valid_position 5 5 = false := by decide

/-- C7 amended: every rejection of `place_stone` is reported as the
single undifferentiated value `False` (one boolean, the same for
out-of-bounds-or-blocked, occupied, suicide and ko), no exception is
raised (the function is total), and no rejection mutates the state. -/
theorem rejection_returns_false_state_unchanged (s : GoBoard) (row col : Int)
    (player : Nat) (h : (s.place_stone row col player).1 = false) :
    s.place_stone row col player = (false, s) := by
  rcases s.place_stone_cases row col player with hc | hc
  · exact hc
  · rw [hc] at h
    simp at h

/-- Witness for C7's amended theorem: the occupied-cell rejection
returns `False` with the state unchanged. -/
theorem rejection_returns_false_state_unchanged_witness :
    exOccupied.place_stone 0 0 2 = (false, exOccupied) :=
  rejection_returns_false_state_unchanged exOccupied 0 0 2 (by decide)

/-- C8: `pass_turn` increments `consecutive_passes`, flips
`current_player` and changes nothing else (board, captured counters,
move log, last moves, ko grids and the influence cache are untouched);
`is_game_over` is true exactly when `consecutive_passes >= 2`; every
accepted placement resets `consecutive_passes` to 0. -/
theorem pass_turn_effects_and_game_over (s : GoBoard) :
    (s.pass_turn = { s with
        consecutive_passes := s.consecutive_passes + 1
        current_player := 3 - s.current_player }) ∧
    (s.is_game_over = true ↔ 2 ≤ s.consecutive_passes) ∧
    (∀ (row col : Int) (player : Nat) (s2 : GoBoard),
      s.place_stone row col player = (true, s2) → s2.consecutive_passes = 0) := by
  refine ⟨rfl, by simp [GoBoard.is_game_over], ?_⟩
  intro row col player s2 h
  rw [s.place_stone_true_inv s2 row col player h]
  rfl

/-- A 1x2 state with a lone white stone and one previous pass, where
Black to move at (0,1) captures it. -/
def exCapture : GoBoard :=
  { mkGoBoard maskRow2 with board := [[2, 0]], consecutive_passes := 1 }

/-- Witness for C8: the accepted capture at (0,1) resets the pass
counter from 1 to 0. -/
theorem pass_turn_effects_and_game_over_witness :
    ((exCapture.place_stone 0 1 1).2).consecutive_passes = 0 :=
  (pass_turn_effects_and_game_over exCapture).2.2 0 1 1
    (exCapture.place_stone 0 1 1).2 (by decide)

/-- C10: `get_snapshot` copies exactly `board`, `captured`,
`current_player`, `last_moves` and `move_order`; `set_snapshot` leaves
`prev_board`, `prev_prev_board` and `consecutive_passes` of the live
state untouched; hence `undo_move` and `redo_move` (which restore via
`set_snapshot`) keep the ko-comparison grids and the pass counter at
the values they had before the restore. -/
theorem snapshot_omits_ko_grids_and_pass_counter :
    (∀ s : GoBoard, s.get_snapshot = {
        board := s.board
        captured_black := s.captured_black
        captured_white := s.captured_white
        current_player := s.current_player
        last_moves_1 := s.last_moves_1
        last_moves_2 := s.last_moves_2
        move_order := s.move_order }) ∧
    (∀ (s : GoBoard) (snap : Snapshot),
      (s.set_snapshot snap).prev_board = s.prev_board ∧
      (s.set_snapshot snap).prev_prev_board = s.prev_prev_board ∧
      (s.set_snapshot snap).consecutive_passes = s.consecutive_passes) ∧
    (∀ g : GoGame,
      (g.undo_move.go_board.prev_board = g.go_board.prev_board ∧
       g.undo_move.go_board.prev_prev_board = g.go_board.prev_prev_board ∧
       g.undo_move.go_board.consecutive_passes = g.go_board.consecutive_passes) ∧
      (g.redo_move.go_board.prev_board = g.go_board.prev_board ∧
       g.redo_move.go_board.prev_prev_board = g.go_board.prev_prev_board ∧
       g.redo_move.go_board.consecutive_passes = g.go_board.consecutive_passes)) := by
  refine ⟨fun s => rfl, fun s snap => ⟨rfl, rfl, rfl⟩, fun g => ⟨?_, ?_⟩⟩
  · unfold GoGame.undo_move
    split <;> exact ⟨rfl, rfl, rfl⟩
  · unfold GoGame.redo_move
    split <;> exact ⟨rfl, rfl, rfl⟩

end IrrBoard

namespace IrrBoard

/-- Changing the recorded last moves changes no legality verdict of the
irregular-board `place_stone`: none of its checks reads `last_moves`. -/
theorem place_result_ignores_last_moves (s : GoBoard) (lm1 lm2 : Option (Int × Int))
    (row col : Int) (player : Nat) :
    (({ s with last_moves_1 := lm1, last_moves_2 := lm2 } : GoBoard).place_stone
        row col player).1 =
      (s.place_stone row col player).1 := by
  have h1 : ({ s with last_moves_1 := lm1, last_moves_2 := lm2 } :
      GoBoard).is_valid_position row col = s.is_valid_position row col := rfl
  have h2 : ({ s with last_moves_1 := lm1, last_moves_2 := lm2 } :
      GoBoard).hasLibertyAfter row col player = s.hasLibertyAfter row col player := rfl
  have h3 : ({ s with last_moves_1 := lm1, last_moves_2 := lm2 } :
      GoBoard).deadOpponents row col player = s.deadOpponents row col player := rfl
  have h4 : ({ s with last_moves_1 := lm1, last_moves_2 := lm2 } :
      GoBoard).boardAfterCaptures row col player = s.boardAfterCaptures row col player := rfl
  simp only [GoBoard.place_stone, h1, h2, h3, h4]
  split
  · rfl
  · split
    · rfl
    · split
      · rfl
      · rfl

/-- The empty 3x3 regular-board state whose Black last move is recorded
at (0,0) (as after an undo, or after the stone was captured). -/
def exMainOwnLast : MainBoard.GoBoard :=
  { MainBoard.mkGoBoard 3 with last_moves_1 := some (0, 0) }

/-- The empty 3x3 irregular-board state with the same recorded Black
last move at (0,0). -/
def exIrrOwnLast : GoBoard := { mkGoBoard mask3x3 with last_moves_1 := some (0, 0) }

/-- C9: the two drafts differ in legality exactly by the legacy
own-last-move check.  On an empty 3x3 board with Black's recorded last
move (0,0), the regular-board (`main.py`) `place_stone` rejects Black's
replay at (0,0) — an empty, otherwise legal cell, accepted as soon as
the recorded last move is dropped — while the irregular-board
(`irrBoard.py`) `place_stone` accepts the identical placement; and the
irregular variant's accept/reject verdict never depends on the
`last_moves` record at all. -/
theorem variant_legality_own_last_move_divergence :
    (exMainOwnLast.place_stone 0 0 1 = (false, exMainOwnLast) ∧
      getCellI exMainOwnLast.board 0 0 = 0 ∧
      ((MainBoard.mkGoBoard 3).place_stone 0 0 1).1 = true) ∧
    (exIrrOwnLast.place_stone 0 0 1).1 = true ∧
    (∀ (s : GoBoard) (lm1 lm2 : Option (Int × Int)) (row col : Int) (player : Nat),
      (({ s with last_moves_1 := lm1, last_moves_2 := lm2 } : GoBoard).place_stone
          row col player).1 =
        (s.place_stone row col player).1) :=
  ⟨⟨by decide, by decide, by decide⟩, by decide, place_result_ignores_last_moves⟩

/-- A fresh 1x2 game after one pass: White to move. -/
def exPass : GoBoard := (mkGoBoard maskRow2).pass_turn

/-- White has played (0,0) on the 1x2 board. -/
def exWhitePlaced : GoBoard := (exPass.place_stone 0 0 2).2

/-- Black has then played (0,1), capturing White's stone at (0,0). -/
def exBlackCaptures : GoBoard := (exWhitePlaced.place_stone 0 1 1).2

/-- The capture position is reachable from a fresh game. -/
theorem reach_exBlackCaptures : Reach exBlackCaptures :=
  Reach.place exWhitePlaced exBlackCaptures 0 1
    (Reach.place exPass exWhitePlaced 0 0
      (Reach.pass (mkGoBoard maskRow2) (Reach.init maskRow2))
      (by decide))
    (by decide)

/-- C6 counterexample: in the reachable state where Black has just
captured White's only stone — so Black has removed exactly one opposing
stone over the game's lifetime and White none — the counters read
`captured.black = 0` and `captured.white = 1`: the counter indexed by a
colour tallies the stones OF that colour that were removed, not the
stones that colour removed. -/
theorem captured_label_counterexample :
    Reach exBlackCaptures ∧
    getCellI exWhitePlaced.board 0 0 = 2 ∧
    exBlackCaptures.board = [[0, 1]] ∧
    exBlackCaptures.move_order = [(0, 0, 2), (0, 1, 1)] ∧
    exBlackCaptures.captured_black = 0 ∧
    exBlackCaptures.captured_white = 1 :=
  ⟨reach_exBlackCaptures, by decide, by decide, by decide, by decide, by decide⟩

end IrrBoard

/-- Reading a just-written list entry. -/
theorem getD_set_self {α : Type} (l : List α) (n : Nat) (v d : α) (h : n < l.length) :
    (l.set n v).getD n d = v := by
  simp [List.getD_eq_getElem?_getD, List.getElem?_set_eq_of_lt v h]

/-- Reading another entry after a write. -/
theorem getD_set_ne {α : Type} (l : List α) (n m : Nat) (v d : α) (h : n ≠ m) :
    (l.set n v).getD m d = l.getD m d := by
  simp [List.getD_eq_getElem?_getD, List.getElem?_set_ne h]

/-- Summing an indicator-style map over a duplicate-free list keeps at
most the one term at the marked element. -/
theorem sum_map_ite_single {α : Type} [DecidableEq α] (L : List α) (a : α)
    (f : α → ℚ) (hnd : L.Nodup) :
    (L.map fun x => if x = a then f x else 0).sum = if a ∈ L then f a else 0 := by
  induction L with
  | nil => simp
  | cons b rest ih =>
    rcases List.nodup_cons.mp hnd with ⟨hb, hrest⟩
    simp only [List.map_cons, List.sum_cons, List.mem_cons]
    by_cases hba : b = a
    · subst hba
      rw [ih hrest]
      simp [hb]
    · have : ¬a = b := fun hh => hba hh.symm
      simp [hba, this, ih hrest]

namespace IrrBoard

/-- A rows x cols grid is well-formed when it has `rows` rows of
`cols` entries each. -/
def gridWF {α : Type} (rows cols : Nat) (g : List (List α)) : Prop :=
  g.length = rows ∧ ∀ row ∈ g, row.length = cols

theorem gridWF_replicate {α : Type} (rows cols : Nat) (x : α) :
    gridWF rows cols (List.replicate rows (List.replicate cols x)) := by
  refine ⟨List.length_replicate rows _, fun row hrow => ?_⟩
  rw [List.eq_of_mem_replicate hrow]
  exact List.length_replicate cols _

theorem gridWF_row_length {α : Type} {rows cols : Nat} {g : List (List α)}
    (hwf : gridWF rows cols g) {n : Nat} (hn : n < rows) :
    (g.getD n []).length = cols := by
  have hlen : n < g.length := by rw [hwf.1]; exact hn
  have : g.getD n [] ∈ g := by
    rw [List.getD_eq_getElem?_getD, List.getElem?_eq_getElem hlen]
    exact List.getElem_mem hlen
  exact hwf.2 _ this

theorem addInfluence_wf {rows cols : Nat} {g : List (List ℚ)}
    (hwf : gridWF rows cols g) (r c : Nat) (hr : r < rows) (v : ℚ) :
    gridWF rows cols (addInfluence g r c v) := by
  constructor
  · simp [addInfluence, hwf.1]
  · intro row hrow
    rcases List.mem_or_eq_of_mem_set hrow with hmem | heq
    · exact hwf.2 _ hmem
    · rw [heq, List.length_set]
      exact gridWF_row_length hwf hr

theorem addInfluence_cell {rows cols : Nat} {g : List (List ℚ)}
    (hwf : gridWF rows cols g) (r c : Nat) (hr : r < rows) (hc : c < cols)
    (i j : Nat) (v : ℚ) :
    ((addInfluence g r c v).getD i []).getD j 0 =
      (g.getD i []).getD j 0 + (if r = i ∧ c = j then v else 0) := by
  have hrg : r < g.length := by rw [hwf.1]; exact hr
  have hcg : c < (g.getD r []).length := by rw [gridWF_row_length hwf hr]; exact hc
  unfold addInfluence
  by_cases hri : r = i
  · subst hri
    rw [getD_set_self _ _ _ _ hrg]
    by_cases hcj : c = j
    · subst hcj
      rw [getD_set_self _ _ _ _ hcg]
      simp
    · rw [getD_set_ne _ _ _ _ _ hcj]
      simp [hcj]
  · rw [getD_set_ne _ _ _ _ _ hri]
    simp [hri]

end IrrBoard

namespace IrrBoard

/-- Unfolding of the validity predicate. -/
theorem is_valid_positionP_iff (rows cols : Nat) (board_mask : List (List Nat))
    (row col : Int) :
    is_valid_positionP rows cols board_mask row col = true ↔
      0 ≤ row ∧ row < (rows : Int) ∧ 0 ≤ col ∧ col < (cols : Int) ∧
        getCellI board_mask row col = 1 := by
  simp [is_valid_positionP, and_assoc]

/-- The 7x7 offset window contains exactly the offsets with both
components of absolute value at most 3. -/
theorem mem_influenceOffsets (d : Int × Int) :
    d ∈ influenceOffsets ↔ d.1.natAbs ≤ 3 ∧ d.2.natAbs ≤ 3 := by
  rcases d with ⟨a, b⟩
  simp only [influenceOffsets, influenceSpan, List.mem_flatMap, List.mem_map,
    Prod.mk.injEq, List.mem_cons, List.not_mem_nil, or_false]
  constructor
  · rintro ⟨dr, hdr, dc, hdc, rfl, rfl⟩
    constructor <;> omega
  · rintro ⟨ha, hb⟩
    exact ⟨a, by omega, b, by omega, rfl, rfl⟩

/-- The inner offsets loop preserves grid well-formedness. -/
theorem foldl_influenceAdd_wf (s : GoBoard) (r c : Nat) (base : ℚ)
    (L : List (Int × Int)) (g : List (List ℚ)) (hwf : gridWF s.rows s.cols g) :
    gridWF s.rows s.cols (L.foldl (influenceAddForStone s r c base) g) := by
  induction L generalizing g with
  | nil => exact hwf
  | cons d rest ih =>
    rw [List.foldl_cons]
    apply ih
    unfold influenceAddForStone
    dsimp only
    split
    · next hv =>
      rcases (is_valid_positionP_iff _ _ _ _ _).mp hv with ⟨h1, h2, h3, h4, h5⟩
      exact addInfluence_wf hwf _ _ (by omega) _
    · exact hwf

/-- Effect of the inner offsets loop on one target cell: the cell
accumulates the decayed contribution of each offset that lands on it
(and is valid). -/
theorem foldl_influenceAdd_cell (s : GoBoard) (r c : Nat) (base : ℚ)
    (L : List (Int × Int)) (g : List (List ℚ)) (hwf : gridWF s.rows s.cols g)
    (i j : Nat) (hi : i < s.rows) (hj : j < s.cols) :
    ((L.foldl (influenceAddForStone s r c base) g).getD i []).getD j 0 =
      (g.getD i []).getD j 0 +
        (L.map fun d =>
          if ((r : Int) + d.1 = (i : Int) ∧ (c : Int) + d.2 = (j : Int)) ∧
              is_valid_positionP s.rows s.cols s.board_mask ((r : Int) + d.1)
                ((c : Int) + d.2) = true
          then base * (1 / 2) ^ (d.1.natAbs + d.2.natAbs) else 0).sum := by
  induction L generalizing g with
  | nil => simp
  | cons d rest ih =>
    simp only [List.foldl_cons, List.map_cons, List.sum_cons]
    by_cases hv : is_valid_positionP s.rows s.cols s.board_mask ((r : Int) + d.1)
        ((c : Int) + d.2) = true
    · rcases (is_valid_positionP_iff _ _ _ _ _).mp hv with ⟨h1, h2, h3, h4, h5⟩
      have hstep : influenceAddForStone s r c base g d =
          addInfluence g ((r : Int) + d.1).toNat ((c : Int) + d.2).toNat
            (base * (1 / 2) ^ (d.1.natAbs + d.2.natAbs)) := by
        simp [influenceAddForStone, hv]
      rw [hstep, ih _ (addInfluence_wf hwf _ _ (by omega) _)]
      rw [addInfluence_cell hwf _ _ (by omega) (by omega) i j _]
      have hcond : ((((r : Int) + d.1).toNat = i ∧ ((c : Int) + d.2).toNat = j)) ↔
          ((r : Int) + d.1 = (i : Int) ∧ (c : Int) + d.2 = (j : Int)) := by
        omega
      have hite : (if ((r : Int) + d.1).toNat = i ∧ ((c : Int) + d.2).toNat = j
            then base * (1 / 2) ^ (d.1.natAbs + d.2.natAbs) else 0) =
          (if ((r : Int) + d.1 = (i : Int) ∧ (c : Int) + d.2 = (j : Int)) ∧
              is_valid_positionP s.rows s.cols s.board_mask ((r : Int) + d.1)
                ((c : Int) + d.2) = true
            then base * (1 / 2) ^ (d.1.natAbs + d.2.natAbs) else 0) := by
        simp only [hv, and_true]
        exact if_congr hcond rfl rfl
      rw [hite]
      ring
    · have hstep : influenceAddForStone s r c base g d = g := by
        simp [influenceAddForStone, hv]
      rw [hstep, ih _ hwf]
      simp [hv]

end IrrBoard

namespace IrrBoard

/-- The inner-loop sum collapses to a single decayed term: a stone at
`(r, c)` contributes to the valid cell `(i, j)` exactly when both
offset components have absolute value at most 3 (the Chebyshev window),
with exponent the Manhattan distance. -/
theorem influence_offsets_sum (s : GoBoard) (r c i j : Nat) (base : ℚ)
    (hvij : is_valid_positionP s.rows s.cols s.board_mask (i : Int) (j : Int) = true) :
    (influenceOffsets.map fun d =>
      if ((r : Int) + d.1 = (i : Int) ∧ (c : Int) + d.2 = (j : Int)) ∧
          is_valid_positionP s.rows s.cols s.board_mask ((r : Int) + d.1)
            ((c : Int) + d.2) = true
      then base * (1 / 2) ^ (d.1.natAbs + d.2.natAbs) else 0).sum =
    if ((i : Int) - r).natAbs ≤ 3 ∧ ((j : Int) - c).natAbs ≤ 3 then
      base * (1 / 2) ^ (((i : Int) - r).natAbs + ((j : Int) - c).natAbs) else 0 := by
  have hfun : ∀ d ∈ influenceOffsets,
      (if ((r : Int) + d.1 = (i : Int) ∧ (c : Int) + d.2 = (j : Int)) ∧
          is_valid_positionP s.rows s.cols s.board_mask ((r : Int) + d.1)
            ((c : Int) + d.2) = true
        then base * (1 / 2) ^ (d.1.natAbs + d.2.natAbs) else 0) =
      (if d = ((i : Int) - r, (j : Int) - c) then
        base * (1 / 2) ^ (d.1.natAbs + d.2.natAbs) else 0) := by
    intro d _
    by_cases hd : d = ((i : Int) - r, (j : Int) - c)
    · subst hd
      rw [if_pos rfl, if_pos]
      refine ⟨⟨by ring, by ring⟩, ?_⟩
      rw [show (r : Int) + ((i : Int) - r) = (i : Int) by ring,
        show (c : Int) + ((j : Int) - c) = (j : Int) by ring]
      exact hvij
    · rw [if_neg hd, if_neg]
      rintro ⟨⟨h1, h2⟩, _⟩
      apply hd
      rcases d with ⟨a, b⟩
      simp only [Prod.mk.injEq]
      constructor <;> omega
  rw [List.map_congr_left hfun,
    sum_map_ite_single influenceOffsets ((i : Int) - r, (j : Int) - c) _ (by decide)]
  simp only [mem_influenceOffsets]

/-- One spec-side term of the amended influence formula: the signed
`base_power * (1/2) ^ (Manhattan distance)` contribution of the stone
at a cell `rc`, provided the stone exists and `rc` lies within
Chebyshev distance 3 of the target cell `(i, j)`. -/
def influenceWindowTerm (s : GoBoard) (i j : Nat) (rc : Nat × Nat) : ℚ :=
  if getCellI s.board (rc.1 : Int) (rc.2 : Int) ≠ 0 ∧
      ((i : Int) - rc.1).natAbs ≤ 3 ∧ ((j : Int) - rc.2).natAbs ≤ 3 then
    (if getCellI s.board (rc.1 : Int) (rc.2 : Int) = 1 then (s.base_power : ℚ)
      else -(s.base_power : ℚ)) *
      (1 / 2) ^ (((i : Int) - rc.1).natAbs + ((j : Int) - rc.2).natAbs)
  else 0

/-- One term of the influence formula as the claim states it: the same
decayed contribution, but only within Manhattan distance 3 (a stone
contributes nothing to cells at Manhattan distance greater than 3). -/
def influenceManhattanTerm (s : GoBoard) (i j : Nat) (rc : Nat × Nat) : ℚ :=
  if getCellI s.board (rc.1 : Int) (rc.2 : Int) ≠ 0 ∧
      ((i : Int) - rc.1).natAbs + ((j : Int) - rc.2).natAbs ≤ 3 then
    (if getCellI s.board (rc.1 : Int) (rc.2 : Int) = 1 then (s.base_power : ℚ)
      else -(s.base_power : ℚ)) *
      (1 / 2) ^ (((i : Int) - rc.1).natAbs + ((j : Int) - rc.2).natAbs)
  else 0

/-- The outer per-stone loop preserves grid well-formedness. -/
theorem foldl_influenceStone_wf (s : GoBoard) (L : List (Nat × Nat))
    (g : List (List ℚ)) (hwf : gridWF s.rows s.cols g) :
    gridWF s.rows s.cols (L.foldl (influenceStoneLoop s) g) := by
  induction L generalizing g with
  | nil => exact hwf
  | cons rc rest ih =>
    rw [List.foldl_cons]
    apply ih
    unfold influenceStoneLoop
    dsimp only
    split
    · exact hwf
    · exact foldl_influenceAdd_wf s rc.1 rc.2 _ influenceOffsets g hwf

/-- Effect of the outer per-stone loop on one valid target cell: it
accumulates one `influenceWindowTerm` per scanned cell. -/
theorem foldl_influenceStone_cell (s : GoBoard) (L : List (Nat × Nat))
    (g : List (List ℚ)) (hwf : gridWF s.rows s.cols g) (i j : Nat)
    (hi : i < s.rows) (hj : j < s.cols)
    (hvij : is_valid_positionP s.rows s.cols s.board_mask (i : Int) (j : Int) = true) :
    ((L.foldl (influenceStoneLoop s) g).getD i []).getD j 0 =
      (g.getD i []).getD j 0 + (L.map (influenceWindowTerm s i j)).sum := by
  induction L generalizing g with
  | nil => simp
  | cons rc rest ih =>
    simp only [List.foldl_cons, List.map_cons, List.sum_cons]
    by_cases hst : getCellI s.board (rc.1 : Int) (rc.2 : Int) = 0
    · have hstep : influenceStoneLoop s g rc = g := by
        simp [influenceStoneLoop, hst]
      have hterm : influenceWindowTerm s i j rc = 0 := by
        simp [influenceWindowTerm, hst]
      rw [hstep, ih _ hwf, hterm]
      ring
    · have hstep : influenceStoneLoop s g rc =
          influenceOffsets.foldl
            (influenceAddForStone s rc.1 rc.2
              (if getCellI s.board (rc.1 : Int) (rc.2 : Int) == 1 then
                (s.base_power : ℚ) else -(s.base_power : ℚ))) g := by
        simp [influenceStoneLoop, hst]
      rw [hstep, ih _ (foldl_influenceAdd_wf s rc.1 rc.2 _ influenceOffsets g hwf)]
      rw [foldl_influenceAdd_cell s rc.1 rc.2 _ influenceOffsets g hwf i j hi hj]
      rw [influence_offsets_sum s rc.1 rc.2 i j _ hvij]
      have hterm : influenceWindowTerm s i j rc =
          (if ((i : Int) - rc.1).natAbs ≤ 3 ∧ ((j : Int) - rc.2).natAbs ≤ 3 then
            (if getCellI s.board (rc.1 : Int) (rc.2 : Int) == 1 then
              (s.base_power : ℚ) else -(s.base_power : ℚ)) *
              (1 / 2) ^ (((i : Int) - rc.1).natAbs + ((j : Int) - rc.2).natAbs)
          else 0) := by
        simp only [influenceWindowTerm, hst, ne_eq, not_false_iff, true_and, beq_iff_eq]
      rw [hterm]
      ring
  
end IrrBoard

/-- Numeral form of `Int.toNat` for the simp normal form produced by
`Nat.cast_ofNat`. -/
theorem int_toNat_numeral (n : Nat) [n.AtLeastTwo] :
    (no_index (OfNat.ofNat n) : Int).toNat = OfNat.ofNat n := rfl

namespace IrrBoard

/-- Reading a cell of the rounded grid reads the rounding of the cell. -/
theorem cellD_map_pyRound (g : List (List ℚ)) (i j : Nat) (hi : i < g.length)
    (hj : j < (g.getD i []).length) :
    cellD (g.map fun row => row.map pyRound) (i : Int) (j : Int) 0 =
      pyRound ((g.getD i []).getD j 0) := by
  have h1 : (g.map fun row => row.map pyRound).getD i [] = (g.getD i []).map pyRound := by
    rw [List.getD_eq_getElem?_getD, List.getElem?_map]
    rw [List.getD_eq_getElem?_getD, List.getElem?_eq_getElem hi]
    simp
  have h2 : cellD (g.map fun row => row.map pyRound) (i : Int) (j : Int) 0 =
      ((g.map fun row => row.map pyRound).getD i []).getD j 0 := by
    simp [cellD, Int.toNat_natCast]
  rw [h2, h1]
  rw [List.getD_eq_getElem?_getD, List.getElem?_map]
  rw [List.getD_eq_getElem?_getD (g.getD i []), List.getElem?_eq_getElem hj]
  simp

/-- The per-cell closed form of the recomputed influence grid: each
valid cell holds the rounded sum of one window term per board cell. -/
theorem computeInfluence_cell (s : GoBoard) (i j : Nat)
    (hvij : is_valid_positionP s.rows s.cols s.board_mask (i : Int) (j : Int) = true) :
    cellD s.computeInfluence (i : Int) (j : Int) 0 =
      pyRound (((cellsN s.rows s.cols).map (influenceWindowTerm s i j)).sum) := by
  rcases (is_valid_positionP_iff _ _ _ _ _).mp hvij with ⟨h1, h2, h3, h4, h5⟩
  have hi : i < s.rows := by omega
  have hj : j < s.cols := by omega
  have hwf0 := gridWF_replicate s.rows s.cols (0 : ℚ)
  have hwfF := foldl_influenceStone_wf s (cellsN s.rows s.cols) _ hwf0
  have h0 : ((List.replicate s.rows (List.replicate s.cols (0 : ℚ))).getD i []).getD j 0
      = 0 := by
    simp [List.getD_eq_getElem?_getD, List.getElem?_replicate, hi, hj]
  have hcell := foldl_influenceStone_cell s (cellsN s.rows s.cols) _ hwf0 i j hi hj hvij
  unfold GoBoard.computeInfluence
  rw [cellD_map_pyRound _ i j (by rw [hwfF.1]; exact hi)
    (by rw [gridWF_row_length hwfF hi]; exact hj)]
  rw [hcell, h0, zero_add]

/-- C5 amended: for every playable cell `(i, j)` (and empty cache),
`calculate_influence` returns at `(i, j)` the nearest-integer rounding
(Python banker's rounding) of the sum, over every stone on the board
whose offset `(dr, dc)` to the cell satisfies `|dr| <= 3` and
`|dc| <= 3` (the Chebyshev-radius-3 window of the `range(-3, 4)` x
`range(-3, 4)` loops), of `±base_power * 0.5 ^ d` where `d` is the
Manhattan distance (so contributions reach Manhattan distance up to 6,
not 3 as the claim states). -/
theorem influence_chebyshev_window_formula (s : GoBoard)
    (hcache : s.influence_cache = none) (i j : Nat)
    (hvalid : s.is_valid_position (i : Int) (j : Int) = true) :
    cellD (s.calculate_influence).1 (i : Int) (j : Int) 0 =
      pyRound (((cellsN s.rows s.cols).map (influenceWindowTerm s i j)).sum) := by
  have hfst : (s.calculate_influence).1 = s.computeInfluence := by
    simp [GoBoard.calculate_influence, hcache]
  rw [hfst]
  exact computeInfluence_cell s i j hvalid

/-- A 3x3 board with a single black stone at (0,0) and empty cache. -/
def exInfluence : GoBoard :=
  { mkGoBoard mask3x3 with board := [[1, 0, 0], [0, 0, 0], [0, 0, 0]] }

/-- Witness for C5's amended theorem at the playable cell (1,1) of the
single-stone board. -/
theorem influence_chebyshev_window_formula_witness :
    exInfluence.influence_cache = none ∧
    exInfluence.is_valid_position 1 1 = true ∧
    cellD (exInfluence.calculate_influence).1 1 1 0 =
      pyRound (((cellsN exInfluence.rows exInfluence.cols).map
        (influenceWindowTerm exInfluence 1 1)).sum) :=
  ⟨rfl, by decide, influence_chebyshev_window_formula exInfluence rfl 1 1 (by decide)⟩

/-- C5 counterexample: with a single black stone at (0,0), the cell
(2,2) lies at Manhattan distance 4 > 3, so the claim's formula (stones
within Manhattan distance at most 3, and nothing beyond) yields 0
there; but `calculate_influence` computes 4, because the code's loops
cover the square `dr, dc ∈ range(-3, 4)` and the stone contributes
`64 * 0.5^4 = 4`. -/
theorem influence_beyond_manhattan_radius :
    exInfluence.influence_cache = none ∧
    getCellI exInfluence.board 0 0 = 1 ∧
    ((2 : Int) - 0).natAbs + ((2 : Int) - 0).natAbs = 4 ∧
    cellD (exInfluence.calculate_influence).1 2 2 0 = 4 ∧
    pyRound (((cellsN exInfluence.rows exInfluence.cols).map
      (influenceManhattanTerm exInfluence 2 2)).sum) = 0 := by
  refine ⟨rfl, by decide, by decide, ?_, ?_⟩
  · have hstep := influence_chebyshev_window_formula exInfluence rfl 2 2 (by decide)
    rw [show ((2 : Nat) : Int) = (2 : Int) from rfl] at hstep
    rw [hstep]
    have hc : cellsN exInfluence.rows exInfluence.cols =
        [(0,0),(0,1),(0,2),(1,0),(1,1),(1,2),(2,0),(2,1),(2,2)] := by rfl
    rw [hc]
    norm_num [influenceWindowTerm, pyRound, getCellI, cellD, exInfluence,
      mkGoBoard, mask3x3, int_toNat_numeral]
  · have hc : cellsN exInfluence.rows exInfluence.cols =
        [(0,0),(0,1),(0,2),(1,0),(1,1),(1,2),(2,0),(2,1),(2,2)] := by rfl
    rw [hc]
    norm_num [influenceManhattanTerm, pyRound, getCellI, cellD, exInfluence,
      mkGoBoard, mask3x3, int_toNat_numeral]

end IrrBoard

/-- Effect of one list write on the multiplicity of a value. -/
theorem count_set (l : List Nat) (n : Nat) (v u : Nat) (hn : n < l.length) :
    (l.set n v).count u + (if l.getD n 0 = u then 1 else 0) =
      l.count u + (if v = u then 1 else 0) := by
  induction l generalizing n with
  | nil => simp at hn
  | cons a t ih =>
    cases n with
    | zero =>
      simp only [List.set_cons_zero, List.count_cons, List.getD_cons_zero]
      by_cases hv : v = u <;> by_cases ha : a = u <;> simp [hv, ha]
    | succ m =>
      have hm : m < t.length := by simpa using hn
      have := ih m hm
      simp only [List.set_cons_succ, List.count_cons, List.getD_cons_succ]
      by_cases h1 : t.getD m 0 = u <;> by_cases h2 : v = u <;>
        by_cases h3 : a = u <;> simp [h1, h2, h3] at this ⊢ <;> omega

/-- Effect of one row replacement on a summed row statistic. -/
theorem sum_map_set (g : List (List Nat)) (n : Nat) (row2 : List Nat)
    (f : List Nat → Nat) (hn : n < g.length) :
    ((g.set n row2).map f).sum + f (g.getD n []) = (g.map f).sum + f row2 := by
  induction g generalizing n with
  | nil => simp at hn
  | cons a t ih =>
    cases n with
    | zero =>
      simp only [List.set_cons_zero, List.map_cons, List.sum_cons, List.getD_cons_zero]
      omega
    | succ m =>
      have hm : m < t.length := by simpa using hn
      have := ih m hm
      simp only [List.set_cons_succ, List.map_cons, List.sum_cons, List.getD_cons_succ]
      omega

namespace IrrBoard

/-- Effect of one cell write on stone counts. -/
theorem countStones_set (g : List (List Nat)) (r c : Int) (v u : Nat)
    (hr : r.toNat < g.length) (hc : c.toNat < (g.getD r.toNat []).length) :
    countStones (setCellI g r c v) u + (if getCellI g r c = u then 1 else 0) =
      countStones g u + (if v = u then 1 else 0) := by
  unfold countStones setCellI getCellI cellD
  have hs := sum_map_set g r.toNat ((g.getD r.toNat []).set c.toNat v)
    (fun row => row.count u) hr
  have hcnt := count_set (g.getD r.toNat []) c.toNat v u hc
  by_cases h1 : (g.getD r.toNat []).getD c.toNat 0 = u <;> by_cases h2 : v = u <;>
    simp [h1, h2] at hs hcnt ⊢ <;> omega

/-- A nonzero cell read certifies in-range indices (out-of-range reads
default to 0). -/
theorem getCellI_ne_zero_bounds (g : List (List Nat)) (r c : Int)
    (h : getCellI g r c ≠ 0) :
    r.toNat < g.length ∧ c.toNat < (g.getD r.toNat []).length := by
  constructor
  · by_contra hr
    apply h
    unfold getCellI cellD
    have hle : g.length ≤ r.toNat := by omega
    rw [List.getD_eq_default g _ hle]
    simp
  · by_contra hc
    apply h
    unfold getCellI cellD
    have hle : (g.getD r.toNat []).length ≤ c.toNat := by omega
    exact List.getD_eq_default _ _ hle

/-- Writing one cell does not change reads at any other cell (compared
at the level of the actually-indexed `toNat` coordinates). -/
theorem getCellI_setCellI_ne (g : List (List Nat)) (x y : Int × Int) (v : Nat)
    (hne : (x.1.toNat, x.2.toNat) ≠ (y.1.toNat, y.2.toNat)) :
    getCellI (setCellI g x.1 x.2 v) y.1 y.2 = getCellI g y.1 y.2 := by
  unfold getCellI cellD setCellI
  by_cases hrow : x.1.toNat = y.1.toNat
  · have hcol : x.2.toNat ≠ y.2.toNat := by
      intro hh
      exact hne (by rw [hrow, hh])
    rw [← hrow]
    by_cases hltr : x.1.toNat < g.length
    · rw [getD_set_self _ _ _ _ hltr, getD_set_ne _ _ _ _ _ hcol]
    · rw [List.set_eq_of_length_le (by omega)]
  · rw [getD_set_ne _ _ _ _ _ hrow]

/-- Removing a list of pairwise-distinct stones of colour `opp` lowers
the count of `opp` by the list's length and leaves every other nonzero
colour's count unchanged. -/
theorem countStones_removeFold (g : List (List Nat)) (l : List (Int × Int))
    (opp : Nat) (hopp : opp ≠ 0)
    (hpw : l.Pairwise fun x y => (x.1.toNat, x.2.toNat) ≠ (y.1.toNat, y.2.toNat))
    (hall : ∀ x ∈ l, getCellI g x.1 x.2 = opp) :
    countStones (l.foldl (fun b x => setCellI b x.1 x.2 0) g) opp + l.length =
      countStones g opp ∧
    ∀ u, u ≠ opp → u ≠ 0 →
      countStones (l.foldl (fun b x => setCellI b x.1 x.2 0) g) u =
        countStones g u := by
  induction l generalizing g with
  | nil => simp
  | cons x t ih =>
    rcases List.pairwise_cons.mp hpw with ⟨hx, ht⟩
    have hxcell : getCellI g x.1 x.2 = opp := hall x (List.mem_cons_self x t)
    have hb := getCellI_ne_zero_bounds g x.1 x.2 (by rw [hxcell]; exact hopp)
    have hall2 : ∀ y ∈ t, getCellI (setCellI g x.1 x.2 0) y.1 y.2 = opp := by
      intro y hy
      rw [getCellI_setCellI_ne g x y 0 (hx y hy)]
      exact hall y (List.mem_cons_of_mem x hy)
    rcases ih (setCellI g x.1 x.2 0) ht hall2 with ⟨ih1, ih2⟩
    constructor
    · have h1 : countStones (setCellI g x.1 x.2 0) opp + 1 = countStones g opp := by
        have := countStones_set g x.1 x.2 0 opp hb.1 hb.2
        simp [hxcell, Ne.symm hopp] at this
        omega
      simp only [List.foldl_cons, List.length_cons]
      omega
    · intro u hu h0
      rw [List.foldl_cons, ih2 u hu h0]
      have := countStones_set g x.1 x.2 0 u hb.1 hb.2
      have hxu : ¬(getCellI g x.1 x.2 = u) := by rw [hxcell]; exact fun hh => hu hh.symm
      simp [hxu, Ne.symm h0] at this
      omega

end IrrBoard

namespace IrrBoard

/-- Membership in the row-major Nat cell scan. -/
theorem mem_cellsN (rows cols : Nat) (x : Nat × Nat) :
    x ∈ cellsN rows cols ↔ x.1 < rows ∧ x.2 < cols := by
  rcases x with ⟨a, b⟩
  simp [cellsN, List.mem_flatMap, List.mem_map, List.mem_range]

/-- Membership in the row-major Int cell scan. -/
theorem mem_cellsI (rows cols : Nat) (x : Int × Int) :
    x ∈ cellsI rows cols ↔
      0 ≤ x.1 ∧ x.1 < (rows : Int) ∧ 0 ≤ x.2 ∧ x.2 < (cols : Int) := by
  rcases x with ⟨a, b⟩
  simp only [cellsI, List.mem_map, mem_cellsN, Prod.mk.injEq]
  constructor
  · rintro ⟨⟨n, m⟩, ⟨h1, h2⟩, rfl, rfl⟩
    refine ⟨by omega, by omega, by omega, by omega⟩
  · rintro ⟨h1, h2, h3, h4⟩
    exact ⟨(a.toNat, b.toNat), ⟨by omega, by omega⟩, by omega, by omega⟩

/-- The Nat cell scan has no duplicates. -/
theorem cellsN_nodup (rows cols : Nat) : (cellsN rows cols).Nodup := by
  have : cellsN rows cols = List.range rows ×ˢ List.range cols := rfl
  rw [this]
  exact List.Nodup.product (List.nodup_range rows) (List.nodup_range cols)

/-- The Int cell scan has no duplicates. -/
theorem cellsI_nodup (rows cols : Nat) : (cellsI rows cols).Nodup := by
  apply (cellsN_nodup rows cols).map
  intro a b hab
  rcases a with ⟨a1, a2⟩
  rcases b with ⟨b1, b2⟩
  simp only [Prod.mk.injEq] at hab
  exact Prod.ext (by omega) (by omega)

/-- Distinct scan cells stay distinct after `toNat` indexing (they are
all nonnegative). -/
theorem cellsI_pairwise_toNat (rows cols : Nat) :
    (cellsI rows cols).Pairwise fun x y =>
      (x.1.toNat, x.2.toNat) ≠ (y.1.toNat, y.2.toNat) := by
  refine List.Pairwise.imp_of_mem ?_ (cellsI_nodup rows cols)
  intro a b ha hb hne
  rcases (mem_cellsI rows cols a).mp ha with ⟨ha1, _, ha2, _⟩
  rcases (mem_cellsI rows cols b).mp hb with ⟨hb1, _, hb2, _⟩
  intro hEq
  apply hne
  rcases a with ⟨a1, a2⟩
  rcases b with ⟨b1, b2⟩
  simp only [Prod.mk.injEq] at hEq ⊢
  constructor <;> omega

/-- Membership in the `dead_opponents` scan: an opposing stone (on the
board with the new stone placed) whose liberty search fails. -/
theorem mem_deadOpponents (s : GoBoard) (row col : Int) (player : Nat)
    (x : Int × Int) :
    x ∈ s.deadOpponents row col player ↔
      x ∈ cellsI s.rows s.cols ∧
      getCellI (s.placedBoard row col player) x.1 x.2 = 3 - player ∧
      check_libertyP s.rows s.cols (is_valid_positionP s.rows s.cols s.board_mask)
        (s.placedBoard row col player) x.1 x.2 (3 - player) = false := by
  unfold GoBoard.deadOpponents
  simp [List.mem_filter, and_assoc]

/-- The `dead_opponents` cells are pairwise distinct as indices. -/
theorem deadOpponents_pairwise (s : GoBoard) (row col : Int) (player : Nat) :
    (s.deadOpponents row col player).Pairwise fun x y =>
      (x.1.toNat, x.2.toNat) ≠ (y.1.toNat, y.2.toNat) := by
  unfold GoBoard.deadOpponents
  exact (cellsI_pairwise_toNat s.rows s.cols).filter _

/-- An accepted placement passed the playability and emptiness guard. -/
theorem place_stone_true_guards (s s2 : GoBoard) (row col : Int) (player : Nat)
    (h : s.place_stone row col player = (true, s2)) :
    s.is_valid_position row col = true ∧ getCellI s.board row col = 0 := by
  by_cases hv : (!(s.is_valid_position row col) ||
      !(getCellI s.board row col == 0)) = true
  · unfold GoBoard.place_stone at h
    rw [if_pos hv] at h
    simp at h
  · simp only [Bool.or_eq_true, Bool.not_eq_true', beq_iff_eq, not_or,
      Bool.not_eq_false] at hv
    exact hv

end IrrBoard

namespace IrrBoard

/-- Writing an in-range cell preserves well-formedness. -/
theorem gridWF_setCellI {rows cols : Nat} {g : List (List Nat)}
    (hwf : gridWF rows cols g) (r c : Int) (hr : r.toNat < rows) (v : Nat) :
    gridWF rows cols (setCellI g r c v) := by
  constructor
  · simp [setCellI, hwf.1]
  · intro row hrow
    rcases List.mem_or_eq_of_mem_set hrow with hmem | heq
    · exact hwf.2 _ hmem
    · rw [heq, List.length_set]
      exact gridWF_row_length hwf hr

/-- Removing a list of in-range cells preserves well-formedness. -/
theorem gridWF_foldRemove {rows cols : Nat} (l : List (Int × Int))
    {g : List (List Nat)} (hwf : gridWF rows cols g)
    (hin : ∀ x ∈ l, x.1.toNat < rows) :
    gridWF rows cols (l.foldl (fun b x => setCellI b x.1 x.2 0) g) := by
  induction l generalizing g with
  | nil => exact hwf
  | cons x t ih =>
    rw [List.foldl_cons]
    exact ih (gridWF_setCellI hwf _ _ (hin x (List.mem_cons_self x t)) 0)
      fun y hy => hin y (List.mem_cons_of_mem x hy)

/-- The empty board holds no stones of any colour. -/
theorem countStones_replicate_zero (rows cols u : Nat) (hu : u ≠ 0) :
    countStones (List.replicate rows (List.replicate cols 0)) u = 0 := by
  simp [countStones, List.map_replicate, List.sum_replicate,
    List.count_replicate, hu, Ne.symm hu]

/-- The fields of the committed success state. -/
theorem successState_fields (s : GoBoard) (row col : Int) (player : Nat) :
    (s.successState row col player).board = s.boardAfterCaptures row col player ∧
    (s.successState row col player).rows = s.rows ∧
    (s.successState row col player).cols = s.cols ∧
    (s.successState row col player).current_player = 3 - player ∧
    (s.successState row col player).move_order =
      s.move_order ++ [(row, col, player)] ∧
    (s.successState row col player).captured_black =
      (if 3 - player == 1 then
        s.captured_black + (s.deadOpponents row col player).length
      else s.captured_black) ∧
    (s.successState row col player).captured_white =
      (if 3 - player == 2 then
        s.captured_white + (s.deadOpponents row col player).length
      else s.captured_white) :=
  ⟨rfl, rfl, rfl, rfl, rfl, rfl, rfl⟩

/-- Bookkeeping of one accepted placement: the committed state keeps
the board well-formed and changes each colour's "stones on board plus
stones captured" total by exactly one for the placing colour. -/
theorem place_step_counts (s s2 : GoBoard) (row col : Int) (p : Nat)
    (hp : p = 1 ∨ p = 2) (hwf : gridWF s.rows s.cols s.board)
    (hps : s.place_stone row col p = (true, s2)) :
    gridWF s2.rows s2.cols s2.board ∧
    s2.current_player = 3 - p ∧
    s2.move_order = s.move_order ++ [(row, col, p)] ∧
    countStones s2.board 1 + s2.captured_black =
      countStones s.board 1 + s.captured_black + (if p = 1 then 1 else 0) ∧
    countStones s2.board 2 + s2.captured_white =
      countStones s.board 2 + s.captured_white + (if p = 2 then 1 else 0) := by
  rcases place_stone_true_guards s s2 row col p hps with ⟨hvalid, hempty⟩
  have hs2 := s.place_stone_true_inv s2 row col p hps
  subst hs2
  rcases (is_valid_positionP_iff _ _ _ _ _).mp hvalid with ⟨hb1, hb2, hb3, hb4, _⟩
  have hrowlt : row.toNat < s.rows := by omega
  have hcollt : col.toNat < s.cols := by omega
  have hrowg : row.toNat < s.board.length := by rw [hwf.1]; exact hrowlt
  have hcolg : col.toNat < (s.board.getD row.toNat []).length := by
    rw [gridWF_row_length hwf hrowlt]; exact hcollt
  have hallpb : ∀ x ∈ s.deadOpponents row col p,
      getCellI (s.placedBoard row col p) x.1 x.2 = 3 - p :=
    fun x hx => ((mem_deadOpponents s row col p x).mp hx).2.1
  have hdeadin : ∀ x ∈ s.deadOpponents row col p, x.1.toNat < s.rows := by
    intro x hx
    rcases (mem_cellsI s.rows s.cols x).mp
      ((mem_deadOpponents s row col p x).mp hx).1 with ⟨hh1, hh2, _, _⟩
    omega
  rcases successState_fields s row col p with ⟨hf1, hf2, hf3, hf4, hf5, hf6, hf7⟩
  have hwf2 : gridWF (s.successState row col p).rows (s.successState row col p).cols
      (s.successState row col p).board := by
    rw [hf1, hf2, hf3]
    unfold GoBoard.boardAfterCaptures
    exact gridWF_foldRemove _ (gridWF_setCellI hwf _ _ hrowlt p) hdeadin
  refine ⟨hwf2, hf4, hf5, ?_, ?_⟩ <;>
    rcases hp with rfl | rfl <;>
      simp only [hf1, hf6, hf7] <;> unfold GoBoard.boardAfterCaptures
  · have hp1 := countStones_set s.board row col 1 1 hrowg hcolg
    have hrm := countStones_removeFold (s.placedBoard row col 1)
      (s.deadOpponents row col 1) (3 - 1) (by decide)
      (deadOpponents_pairwise s row col 1) hallpb
    have hrm1 := hrm.2 1 (by decide) (by decide)
    simp only [hempty] at hp1
    unfold GoBoard.placedBoard at hrm1 ⊢
    simp at hp1 ⊢
    omega
  · have hp1 := countStones_set s.board row col 2 1 hrowg hcolg
    have hrm := countStones_removeFold (s.placedBoard row col 2)
      (s.deadOpponents row col 2) (3 - 2) (by decide)
      (deadOpponents_pairwise s row col 2) hallpb
    have hrm1 := hrm.1
    simp only [hempty] at hp1
    unfold GoBoard.placedBoard at hrm1 ⊢
    simp at hp1 hrm1 ⊢
    omega
  · have hp2 := countStones_set s.board row col 1 2 hrowg hcolg
    have hrm := countStones_removeFold (s.placedBoard row col 1)
      (s.deadOpponents row col 1) (3 - 1) (by decide)
      (deadOpponents_pairwise s row col 1) hallpb
    have hrm2 := hrm.1
    simp only [hempty] at hp2
    unfold GoBoard.placedBoard at hrm2 ⊢
    simp at hp2 hrm2 ⊢
    omega
  · have hp2 := countStones_set s.board row col 2 2 hrowg hcolg
    have hrm := countStones_removeFold (s.placedBoard row col 2)
      (s.deadOpponents row col 2) (3 - 2) (by decide)
      (deadOpponents_pairwise s row col 2) hallpb
    have hrm2 := hrm.2 2 (by decide) (by decide)
    simp only [hempty] at hp2
    unfold GoBoard.placedBoard at hrm2 ⊢
    simp at hp2 ⊢
    omega

/-- The inductive invariant of reachable states: a well-formed board,
a current player that is Black or White, and the conservation law
"placements of a colour = stones of that colour on the board + stones
of that colour captured". -/
theorem reach_invariant (s : GoBoard) (h : Reach s) :
    gridWF s.rows s.cols s.board ∧
    (s.current_player = 1 ∨ s.current_player = 2) ∧
    s.move_order.countP (fun m => m.2.2 == 1) =
      countStones s.board 1 + s.captured_black ∧
    s.move_order.countP (fun m => m.2.2 == 2) =
      countStones s.board 2 + s.captured_white := by
  induction h with
  | init board_mask =>
    refine ⟨gridWF_replicate _ _ 0, Or.inl rfl, ?_, ?_⟩ <;>
      simp [mkGoBoard, countStones_replicate_zero]
  | place s s2 row col hr hps ih =>
    rcases ih with ⟨hwf, hp, ih1, ih2⟩
    rcases place_step_counts s s2 row col s.current_player hp hwf hps with
      ⟨hwf2, hcur, hmv, hc1, hc2⟩
    refine ⟨hwf2, ?_, ?_, ?_⟩
    · rw [hcur]; rcases hp with h1 | h1 <;> rw [h1]
      · exact Or.inr rfl
      · exact Or.inl rfl
    · rw [hmv, List.countP_append, List.countP_cons, List.countP_nil]
      rcases hp with h1 | h1 <;> simp [h1] at hc1 hc2 ⊢ <;> omega
    · rw [hmv, List.countP_append, List.countP_cons, List.countP_nil]
      rcases hp with h1 | h1 <;> simp [h1] at hc1 hc2 ⊢ <;> omega
  | pass s hr ih =>
    rcases ih with ⟨hwf, hp, ih1, ih2⟩
    refine ⟨hwf, ?_, ih1, ih2⟩
    unfold GoBoard.pass_turn
    dsimp only
    omega

end IrrBoard

namespace IrrBoard

/-- C6 amended: at every reachable state, `captured.black` and
`captured.white` each record the number of stones OF that colour that
have been removed from the board over the game's lifetime
(`captured.black` counts black stones removed by White's captures, and
symmetrically) — stated as the conservation law "number of placements
by a colour equals that colour's stones on the board plus that
colour's own captured counter". -/
theorem captured_counters_track_removed_stones (s : GoBoard) (h : Reach s) :
    s.move_order.countP (fun m => m.2.2 == 1) =
      countStones s.board 1 + s.captured_black ∧
    s.move_order.countP (fun m => m.2.2 == 2) =
      countStones s.board 2 + s.captured_white :=
  ⟨(reach_invariant s h).2.2.1, (reach_invariant s h).2.2.2⟩

/-- Witness for C6's amended theorem at the reachable capture state:
White placed once and lost that stone (count 1 = 0 on board + 1
captured under `white`), Black placed once and keeps it. -/
theorem captured_counters_track_removed_stones_witness :
    exBlackCaptures.move_order.countP (fun m => m.2.2 == 1) =
      countStones exBlackCaptures.board 1 + exBlackCaptures.captured_black ∧
    exBlackCaptures.move_order.countP (fun m => m.2.2 == 2) =
      countStones exBlackCaptures.board 2 + exBlackCaptures.captured_white :=
  captured_counters_track_removed_stones exBlackCaptures reach_exBlackCaptures

end IrrBoard

/-- Spec-side connectivity: the cells reachable from `start` by
stepping through orthogonally adjacent, valid cells holding the colour
`player` (the glossary's connected same-colour group, grown from
`start`). -/
inductive ReachStones (valid : Int → Int → Bool) (board : List (List Nat))
    (player : Nat) : (Int × Int) → (Int × Int) → Prop where
  | refl (x : Int × Int) : ReachStones valid board player x x
  | tail (x y z : Int × Int) : ReachStones valid board player x y →
      z ∈ nbrsOf y → valid z.1 z.2 = true → getCellI board z.1 z.2 = player →
      ReachStones valid board player x z

/-- Spec-side "this cell touches a liberty": some orthogonal neighbour
is a valid empty cell. -/
def hasEmptyNbr (valid : Int → Int → Bool) (board : List (List Nat))
    (y : Int × Int) : Prop :=
  ∃ z ∈ nbrsOf y, valid z.1 z.2 = true ∧ getCellI board z.1 z.2 = 0

/-- Spec-side liberty of the group grown from `start`: some cell of
the connected same-colour group has an empty, valid, orthogonally
adjacent cell (the glossary's definition of a liberty). -/
def hasLibertySpec (valid : Int → Int → Bool) (board : List (List Nat))
    (player : Nat) (start : Int × Int) : Prop :=
  ∃ y, ReachStones valid board player start y ∧ hasEmptyNbr valid board y

/-- Unfolding: the empty queue returns the tally. -/
theorem libertySearch_nil (valid : Int → Int → Bool) (board : List (List Nat))
    (player fuel : Nat) (visited : Finset (Int × Int)) (libs : Nat) :
    libertySearch valid board player fuel visited [] libs = some libs := by
  cases fuel <;> rfl

/-- Unfolding: a visited head is skipped. -/
theorem libertySearch_visited (valid : Int → Int → Bool) (board : List (List Nat))
    (player fuel : Nat) (visited : Finset (Int × Int)) (x : Int × Int)
    (rest : List (Int × Int)) (libs : Nat) (h : x ∈ visited) :
    libertySearch valid board player (fuel + 1) visited (x :: rest) libs =
      libertySearch valid board player fuel visited rest libs := by
  rcases x with ⟨r, c⟩
  simp [libertySearch, h]

/-- Unfolding: an unvisited head is expanded. -/
theorem libertySearch_unvisited (valid : Int → Int → Bool) (board : List (List Nat))
    (player fuel : Nat) (visited : Finset (Int × Int)) (x : Int × Int)
    (rest : List (Int × Int)) (libs : Nat) (h : x ∉ visited) :
    libertySearch valid board player (fuel + 1) visited (x :: rest) libs =
      libertySearch valid board player fuel (insert x visited)
        (rest ++ nextList valid board player x)
        (libs + foundCount valid board x) := by
  rcases x with ⟨r, c⟩
  simp [libertySearch, h]

/-- Membership in the enqueued-neighbour list. -/
theorem mem_nextList (valid : Int → Int → Bool) (board : List (List Nat))
    (player : Nat) (y z : Int × Int) :
    z ∈ nextList valid board player y ↔
      z ∈ nbrsOf y ∧ valid z.1 z.2 = true ∧ getCellI board z.1 z.2 ≠ 0 ∧
        getCellI board z.1 z.2 = player := by
  simp [nextList, List.mem_filter, and_assoc]

/-- A positive liberty tally at a popped cell certifies a valid empty
neighbour, and conversely. -/
theorem foundCount_pos_iff (valid : Int → Int → Bool) (board : List (List Nat))
    (y : Int × Int) :
    0 < foundCount valid board y ↔ hasEmptyNbr valid board y := by
  unfold foundCount hasEmptyNbr
  rw [List.length_pos_iff_exists_mem]
  constructor
  · rintro ⟨z, hz⟩
    rcases List.mem_filter.mp hz with ⟨hmem, hcond⟩
    simp only [Bool.and_eq_true, beq_iff_eq] at hcond
    exact ⟨z, hmem, hcond.1, hcond.2⟩
  · rintro ⟨z, hmem, hv, h0⟩
    refine ⟨z, List.mem_filter.mpr ⟨hmem, ?_⟩⟩
    simp [hv, h0]

/-- Soundness of the search: a strictly increased tally means some cell
satisfying the step-closed predicate `Q` (all queue entries satisfy it,
and it is preserved along enqueued neighbours) touches a liberty. -/
theorem libertySearch_sound (valid : Int → Int → Bool) (board : List (List Nat))
    (player : Nat) (Q : (Int × Int) → Prop)
    (hQ : ∀ y z, Q y → z ∈ nextList valid board player y → Q z) :
    ∀ (fuel : Nat) (visited : Finset (Int × Int)) (queue : List (Int × Int))
      (libs res : Nat), (∀ x ∈ queue, Q x) →
      libertySearch valid board player fuel visited queue libs = some res →
      libs < res → ∃ y, Q y ∧ hasEmptyNbr valid board y := by
  intro fuel
  induction fuel with
  | zero =>
    intro visited queue libs res hq hrun hlt
    cases queue with
    | nil =>
      rw [libertySearch_nil] at hrun
      injection hrun with hres
      omega
    | cons x rest => exact absurd hrun (by rcases x with ⟨r, c⟩; simp [libertySearch])
  | succ f ih =>
    intro visited queue libs res hq hrun hlt
    cases queue with
    | nil =>
      rw [libertySearch_nil] at hrun
      injection hrun with hres
      omega
    | cons x rest =>
      by_cases hvx : x ∈ visited
      · rw [libertySearch_visited valid board player f visited x rest libs hvx] at hrun
        exact ih visited rest libs res
          (fun z hz => hq z (List.mem_cons_of_mem x hz)) hrun hlt
      · rw [libertySearch_unvisited valid board player f visited x rest libs hvx] at hrun
        by_cases hfound : 0 < foundCount valid board x
        · exact ⟨x, hq x (List.mem_cons_self x rest),
            (foundCount_pos_iff valid board x).mp hfound⟩
        · have hz : foundCount valid board x = 0 := by omega
          rw [hz, Nat.add_zero] at hrun
          refine ih (insert x visited) (rest ++ nextList valid board player x)
            libs res ?_ hrun hlt
          intro z hz2
          rcases List.mem_append.mp hz2 with hz3 | hz3
          · exact hq z (List.mem_cons_of_mem x hz3)
          · exact hQ x z (hq x (List.mem_cons_self x rest)) hz3

/-- When the queue is exhausted, the visited set is closed under the
search's own step, so every group cell reachable from a visited cell is
itself visited. -/
theorem reachStones_mem_of_closed (valid : Int → Int → Bool)
    (board : List (List Nat)) (player : Nat) (hplayer : player ≠ 0)
    (visited : Finset (Int × Int))
    (hclosed : ∀ x ∈ visited, ∀ z ∈ nextList valid board player x, z ∈ visited)
    (x y : Int × Int) (hx : x ∈ visited)
    (hreach : ReachStones valid board player x y) : y ∈ visited := by
  induction hreach with
  | refl => exact hx
  | tail b c hab hmem hv hc ih =>
    refine hclosed b ih c ((mem_nextList valid board player b c).mpr ?_)
    exact ⟨hmem, hv, by rw [hc]; exact hplayer, hc⟩

/-- Completeness of the search: if some cell of a group reachable from
the visited set or the queue touches a liberty, any completed run
returns a positive tally. -/
theorem libertySearch_complete (valid : Int → Int → Bool) (board : List (List Nat))
    (player : Nat) (hplayer : player ≠ 0) :
    ∀ (fuel : Nat) (visited : Finset (Int × Int)) (queue : List (Int × Int))
      (libs res : Nat),
      (∀ x ∈ visited, hasEmptyNbr valid board x → 0 < libs) →
      (∀ x ∈ visited, ∀ z ∈ nextList valid board player x,
        z ∈ visited ∨ z ∈ queue) →
      (∃ x y, (x ∈ visited ∨ x ∈ queue) ∧ ReachStones valid board player x y ∧
        hasEmptyNbr valid board y) →
      libertySearch valid board player fuel visited queue libs = some res →
      0 < res := by
  intro fuel
  induction fuel with
  | zero =>
    intro visited queue libs res hI3 hI4 hex hrun
    cases queue with
    | nil =>
      rw [libertySearch_nil] at hrun
      injection hrun with hres
      subst hres
      rcases hex with ⟨x, y, hx | hx, hreach, hemp⟩
      · exact hI3 y (reachStones_mem_of_closed valid board player hplayer visited
          (fun a ha z hz => (hI4 a ha z hz).resolve_right (by simp)) x y hx hreach) hemp
      · exact absurd hx (by simp)
    | cons x rest => exact absurd hrun (by rcases x with ⟨r, c⟩; simp [libertySearch])
  | succ f ih =>
    intro visited queue libs res hI3 hI4 hex hrun
    cases queue with
    | nil =>
      rw [libertySearch_nil] at hrun
      injection hrun with hres
      subst hres
      rcases hex with ⟨x, y, hx | hx, hreach, hemp⟩
      · exact hI3 y (reachStones_mem_of_closed valid board player hplayer visited
          (fun a ha z hz => (hI4 a ha z hz).resolve_right (by simp)) x y hx hreach) hemp
      · exact absurd hx (by simp)
    | cons x rest =>
      by_cases hvx : x ∈ visited
      · rw [libertySearch_visited valid board player f visited x rest libs hvx] at hrun
        refine ih visited rest libs res hI3 ?_ ?_ hrun
        · intro a ha z hz
          rcases hI4 a ha z hz with hz2 | hz2
          · exact Or.inl hz2
          · rcases List.mem_cons.mp hz2 with hz3 | hz3
            · exact Or.inl (hz3 ▸ hvx)
            · exact Or.inr hz3
        · rcases hex with ⟨a, y, ha | ha, hreach, hemp⟩
          · exact ⟨a, y, Or.inl ha, hreach, hemp⟩
          · rcases List.mem_cons.mp ha with ha2 | ha2
            · exact ⟨a, y, Or.inl (ha2 ▸ hvx), hreach, hemp⟩
            · exact ⟨a, y, Or.inr ha2, hreach, hemp⟩
      · rw [libertySearch_unvisited valid board player f visited x rest libs hvx] at hrun
        refine ih (insert x visited) (rest ++ nextList valid board player x)
          (libs + foundCount valid board x) res ?_ ?_ ?_ hrun
        · intro a ha hemp
          rcases Finset.mem_insert.mp ha with ha2 | ha2
          · subst ha2
            have := (foundCount_pos_iff valid board a).mpr hemp
            omega
          · have := hI3 a ha2 hemp
            omega
        · intro a ha z hz
          rcases Finset.mem_insert.mp ha with ha2 | ha2
          · subst ha2
            exact Or.inr (List.mem_append.mpr (Or.inr hz))
          · rcases hI4 a ha2 z hz with hz2 | hz2
            · exact Or.inl (Finset.mem_insert_of_mem hz2)
            · rcases List.mem_cons.mp hz2 with hz3 | hz3
              · exact Or.inl (hz3 ▸ Finset.mem_insert_self x visited)
              · exact Or.inr (List.mem_append.mpr (Or.inl hz3))
        · rcases hex with ⟨a, y, ha | ha, hreach, hemp⟩
          · exact ⟨a, y, Or.inl (Finset.mem_insert_of_mem ha), hreach, hemp⟩
          · rcases List.mem_cons.mp ha with ha2 | ha2
            · exact ⟨a, y, Or.inl (ha2 ▸ Finset.mem_insert_self x visited),
                hreach, hemp⟩
            · exact ⟨a, y, Or.inr (List.mem_append.mpr (Or.inl ha2)), hreach, hemp⟩

/-- The `while queue:` loop of `check_liberty` always terminates: when
every valid cell lies in a finite universe `univ`, the measure
`5|univ \ visited| + 4|queue outside univ| + |queue|` strictly drops at
every iteration, so any fuel at least the initial measure suffices. -/
theorem libertySearch_fuel_sufficient (valid : Int → Int → Bool)
    (board : List (List Nat)) (player : Nat) (univ : Finset (Int × Int))
    (hvu : ∀ z : Int × Int, valid z.1 z.2 = true → z ∈ univ) :
    ∀ (fuel : Nat) (visited : Finset (Int × Int)) (queue : List (Int × Int))
      (libs : Nat),
      5 * (univ \ visited).card +
        4 * (queue.filter fun x => decide (x ∉ univ)).length + queue.length ≤ fuel →
      libertySearch valid board player fuel visited queue libs ≠ none := by
  intro fuel
  induction fuel with
  | zero =>
    intro visited queue libs hm
    cases queue with
    | nil => rw [libertySearch_nil]; simp
    | cons x rest =>
      rw [List.length_cons] at hm
      omega
  | succ f ih =>
    intro visited queue libs hm
    cases queue with
    | nil => rw [libertySearch_nil]; simp
    | cons x rest =>
      by_cases hvx : x ∈ visited
      · rw [libertySearch_visited valid board player f visited x rest libs hvx]
        apply ih visited rest libs
        have hle : (rest.filter fun z => decide (z ∉ univ)).length ≤
            ((x :: rest).filter fun z => decide (z ∉ univ)).length := by
          rw [List.filter_cons]
          split <;> simp
        rw [List.length_cons] at hm
        omega
      · rw [libertySearch_unvisited valid board player f visited x rest libs hvx]
        apply ih (insert x visited) (rest ++ nextList valid board player x)
          (libs + foundCount valid board x)
        have hnextfilter : ((nextList valid board player x).filter
            fun z => decide (z ∉ univ)) = [] := by
          rw [List.filter_eq_nil_iff]
          intro z hz
          simpa using hvu z ((mem_nextList valid board player x z).mp hz).2.1
        have happ : ((rest ++ nextList valid board player x).filter
            fun z => decide (z ∉ univ)).length =
            (rest.filter fun z => decide (z ∉ univ)).length := by
          rw [List.filter_append, hnextfilter, List.append_nil]
        have hnextlen : (nextList valid board player x).length ≤ 4 := by
          have h4 : (nbrsOf x).length = 4 := by simp [nbrsOf, neighborOffsets]
          calc (nextList valid board player x).length
              ≤ (nbrsOf x).length := List.length_filter_le _ _
            _ = 4 := h4
        rw [happ, List.length_append]
        by_cases hxu : x ∈ univ
        · have hxsd : x ∈ univ \ visited := Finset.mem_sdiff.mpr ⟨hxu, hvx⟩
          have hcard : (univ \ insert x visited).card + 1 = (univ \ visited).card := by
            rw [Finset.sdiff_insert, Finset.card_erase_of_mem hxsd]
            have hpos : 0 < (univ \ visited).card := Finset.card_pos.mpr ⟨x, hxsd⟩
            omega
          have hfq : ((x :: rest).filter fun z => decide (z ∉ univ)).length =
              (rest.filter fun z => decide (z ∉ univ)).length := by
            rw [List.filter_cons]
            simp [hxu]
          rw [List.length_cons, hfq] at hm
          omega
        · have hsd : univ \ insert x visited = univ \ visited := by
            rw [Finset.sdiff_insert, Finset.erase_eq_of_not_mem]
            intro hmem
            exact hxu (Finset.mem_sdiff.mp hmem).1
          have hfq : ((x :: rest).filter fun z => decide (z ∉ univ)).length =
              (rest.filter fun z => decide (z ∉ univ)).length + 1 := by
            rw [List.filter_cons]
            simp [hxu]
          rw [List.length_cons, hfq] at hm
          rw [hsd]
          omega

/-- The finite universe of in-range cells, as a `Finset`. -/
def inRangeCells (rows cols : Nat) : Finset (Int × Int) :=
  (Finset.range rows ×ˢ Finset.range cols).image fun p => ((p.1 : Int), (p.2 : Int))

theorem mem_inRangeCells (rows cols : Nat) (z : Int × Int) :
    z ∈ inRangeCells rows cols ↔
      0 ≤ z.1 ∧ z.1 < (rows : Int) ∧ 0 ≤ z.2 ∧ z.2 < (cols : Int) := by
  rcases z with ⟨a, b⟩
  simp only [inRangeCells, Finset.mem_image, Finset.mem_product, Finset.mem_range,
    Prod.mk.injEq, Prod.exists]
  constructor
  · rintro ⟨n, m, ⟨h1, h2⟩, rfl, rfl⟩
    exact ⟨by omega, by omega, by omega, by omega⟩
  · rintro ⟨h1, h2, h3, h4⟩
    exact ⟨a.toNat, b.toNat, ⟨by omega, by omega⟩, by omega, by omega⟩

theorem inRangeCells_card_le (rows cols : Nat) :
    (inRangeCells rows cols).card ≤ rows * cols := by
  calc (inRangeCells rows cols).card
      ≤ (Finset.range rows ×ˢ Finset.range cols).card := Finset.card_image_le
    _ = rows * cols := by rw [Finset.card_product, Finset.card_range, Finset.card_range]

/-- Adequacy of `check_liberty`: under a validity predicate confined to
the `rows x cols` box (true of both drafts), the breadth-first search
returns `True` exactly when the connected same-colour group grown from
`start` has a liberty in the spec's sense — some group cell with an
empty, valid, orthogonally adjacent cell. -/
theorem check_libertyP_iff_spec (rows cols : Nat) (valid : Int → Int → Bool)
    (board : List (List Nat)) (start : Int × Int) (player : Nat)
    (hplayer : player ≠ 0)
    (hv : ∀ r c, valid r c = true →
      0 ≤ r ∧ r < (rows : Int) ∧ 0 ≤ c ∧ c < (cols : Int)) :
    check_libertyP rows cols valid board start.1 start.2 player = true ↔
      hasLibertySpec valid board player start := by
  have hvu : ∀ z : Int × Int, valid z.1 z.2 = true →
      z ∈ insert start (inRangeCells rows cols) := by
    intro z hz
    rcases hv z.1 z.2 hz with ⟨h1, h2, h3, h4⟩
    exact Finset.mem_insert_of_mem ((mem_inRangeCells rows cols z).mpr ⟨h1, h2, h3, h4⟩)
  have hm : 5 * ((insert start (inRangeCells rows cols)) \
        (∅ : Finset (Int × Int))).card +
      4 * (([(start.1, start.2)] : List (Int × Int)).filter
        fun x => decide (x ∉ insert start (inRangeCells rows cols))).length +
      ([(start.1, start.2)] : List (Int × Int)).length ≤
      5 * (rows * cols + 1) + 5 := by
    have hc1 : ((insert start (inRangeCells rows cols)) \
        (∅ : Finset (Int × Int))).card = (insert start (inRangeCells rows cols)).card := by
      simp
    have hc2 : (insert start (inRangeCells rows cols)).card ≤
        (inRangeCells rows cols).card + 1 := Finset.card_insert_le _ _
    have hc3 := inRangeCells_card_le rows cols
    have hf : (([(start.1, start.2)] : List (Int × Int)).filter
        fun x => decide (x ∉ insert start (inRangeCells rows cols))).length ≤ 1 := by
      calc (([(start.1, start.2)] : List (Int × Int)).filter
            fun x => decide (x ∉ insert start (inRangeCells rows cols))).length
          ≤ ([(start.1, start.2)] : List (Int × Int)).length :=
            List.length_filter_le _ _
        _ = 1 := rfl
    simp only [List.length_cons, List.length_nil]
    omega
  have hsuff := libertySearch_fuel_sufficient valid board player
    (insert start (inRangeCells rows cols)) hvu
    (5 * (rows * cols + 1) + 5) ∅ [(start.1, start.2)] 0 hm
  unfold check_libertyP
  rcases hopt : libertySearch valid board player (5 * (rows * cols + 1) + 5)
      ∅ [(start.1, start.2)] 0 with _ | res
  · exact absurd hopt hsuff
  · rw [show (match some res with
        | some libs => decide (0 < libs)
        | none => false) = decide (0 < res) from rfl]
    rw [decide_eq_true_iff]
    constructor
    · intro hres
      exact libertySearch_sound valid board player
        (ReachStones valid board player start)
        (fun y z hy hz => by
          rcases (mem_nextList valid board player y z).mp hz with ⟨hmem, hv2, _, hc⟩
          exact ReachStones.tail start y z hy hmem hv2 hc)
        (5 * (rows * cols + 1) + 5) ∅ [(start.1, start.2)] 0 res
        (by
          intro x hx
          rcases List.mem_singleton.mp hx with rfl
          exact ReachStones.refl start)
        hopt hres
    · intro hspec
      apply libertySearch_complete valid board player hplayer
        (5 * (rows * cols + 1) + 5) ∅ [(start.1, start.2)] 0 res
        (by simp) (by simp) ?_ hopt
      rcases hspec with ⟨y, hreach, hemp⟩
      exact ⟨start, y, Or.inr (List.mem_singleton.mpr rfl), hreach, hemp⟩

namespace IrrBoard

/-- Reading back the cell just written. -/
theorem getCellI_setCellI_self (g : List (List Nat)) (x : Int × Int) (v : Nat)
    (hr : x.1.toNat < g.length) (hc : x.2.toNat < (g.getD x.1.toNat []).length) :
    getCellI (setCellI g x.1 x.2 v) x.1 x.2 = v := by
  unfold getCellI cellD setCellI
  rw [getD_set_self _ _ _ _ hr, getD_set_self _ _ _ _ hc]

/-- The capture-removal fold clears exactly the listed cells: every
listed cell reads 0 afterwards, and every other cell is untouched. -/
theorem removeFold_cell (g : List (List Nat)) (l : List (Int × Int))
    (hpw : l.Pairwise fun x y => (x.1.toNat, x.2.toNat) ≠ (y.1.toNat, y.2.toNat))
    (hall : ∀ x ∈ l, getCellI g x.1 x.2 ≠ 0) :
    (∀ x ∈ l, getCellI (l.foldl (fun b y => setCellI b y.1 y.2 0) g) x.1 x.2 = 0) ∧
    (∀ y : Int × Int, (∀ x ∈ l, (x.1.toNat, x.2.toNat) ≠ (y.1.toNat, y.2.toNat)) →
      getCellI (l.foldl (fun b y => setCellI b y.1 y.2 0) g) y.1 y.2 =
        getCellI g y.1 y.2) := by
  induction l generalizing g with
  | nil => simp
  | cons x t ih =>
    rcases List.pairwise_cons.mp hpw with ⟨hx, ht⟩
    have hxb := getCellI_ne_zero_bounds g x.1 x.2 (hall x (List.mem_cons_self x t))
    have hall2 : ∀ z ∈ t, getCellI (setCellI g x.1 x.2 0) z.1 z.2 ≠ 0 := by
      intro z hz
      rw [getCellI_setCellI_ne g x z 0 (hx z hz)]
      exact hall z (List.mem_cons_of_mem x hz)
    rcases ih (setCellI g x.1 x.2 0) ht hall2 with ⟨ih1, ih2⟩
    constructor
    · intro z hz
      rw [List.foldl_cons]
      rcases List.mem_cons.mp hz with rfl | hz2
      · rw [ih2 z fun w hw => fun hEq => (hx w hw) hEq.symm]
        exact getCellI_setCellI_self g z 0 hxb.1 hxb.2
      · exact ih1 z hz2
    · intro y hy
      rw [List.foldl_cons, ih2 y fun w hw => hy w (List.mem_cons_of_mem x hw)]
      exact getCellI_setCellI_ne g x y 0 (hy x (List.mem_cons_self x t))

/-- The captured-stones counter selected by a colour label
(`captured['black']` for 1, `captured['white']` for 2). -/
def capturedOf (s : GoBoard) (c : Nat) : Nat :=
  if c == 1 then s.captured_black else s.captured_white

/-- C3: an accepted placement removes exactly the opposing stones whose
connected group (on the board with the new stone placed) has no
liberty — a liberty being an empty, in-bounds, playable cell
4-adjacent to some stone of the group — and increments the captured
counter carrying the captured colour's label by exactly one per stone
removed: every stone of every such group is removed, every other
opposing stone stays, the removed set is exactly the dead scan, and
the counter grows by that set's size while the placing colour's
counter is unchanged. -/
theorem capture_correctness (s s2 : GoBoard) (row col : Int) (player : Nat)
    (hp : player = 1 ∨ player = 2)
    (h : s.place_stone row col player = (true, s2)) :
    (∀ x ∈ cellsI s.rows s.cols,
      getCellI (s.placedBoard row col player) x.1 x.2 = 3 - player →
      ¬ hasLibertySpec (is_valid_positionP s.rows s.cols s.board_mask)
          (s.placedBoard row col player) (3 - player) x →
      getCellI s2.board x.1 x.2 = 0) ∧
    (∀ x ∈ cellsI s.rows s.cols,
      getCellI (s.placedBoard row col player) x.1 x.2 = 3 - player →
      hasLibertySpec (is_valid_positionP s.rows s.cols s.board_mask)
          (s.placedBoard row col player) (3 - player) x →
      getCellI s2.board x.1 x.2 = 3 - player) ∧
    (∀ x ∈ cellsI s.rows s.cols,
      (x ∈ s.deadOpponents row col player ↔
        getCellI (s.placedBoard row col player) x.1 x.2 = 3 - player ∧
        ¬ hasLibertySpec (is_valid_positionP s.rows s.cols s.board_mask)
            (s.placedBoard row col player) (3 - player) x)) ∧
    capturedOf s2 (3 - player) =
      capturedOf s (3 - player) + (s.deadOpponents row col player).length ∧
    capturedOf s2 player = capturedOf s player := by
  have hvb : ∀ r c, is_valid_positionP s.rows s.cols s.board_mask r c = true →
      0 ≤ r ∧ r < (s.rows : Int) ∧ 0 ≤ c ∧ c < (s.cols : Int) := by
    intro r c hrc
    rcases (is_valid_positionP_iff _ _ _ _ _).mp hrc with ⟨h1, h2, h3, h4, _⟩
    exact ⟨h1, h2, h3, h4⟩
  have hopp0 : (3 - player) ≠ 0 := by rcases hp with rfl | rfl <;> decide
  have hiff : ∀ x ∈ cellsI s.rows s.cols,
      (x ∈ s.deadOpponents row col player ↔
        getCellI (s.placedBoard row col player) x.1 x.2 = 3 - player ∧
        ¬ hasLibertySpec (is_valid_positionP s.rows s.cols s.board_mask)
            (s.placedBoard row col player) (3 - player) x) := by
    intro x hx
    rw [mem_deadOpponents]
    constructor
    · rintro ⟨_, hcell, hfalse⟩
      refine ⟨hcell, fun hspec => ?_⟩
      have htrue := (check_libertyP_iff_spec s.rows s.cols _ _ x (3 - player)
        hopp0 hvb).mpr hspec
      rw [hfalse] at htrue
      exact absurd htrue (by simp)
    · rintro ⟨hcell, hnospec⟩
      refine ⟨hx, hcell, ?_⟩
      cases hb : check_libertyP s.rows s.cols
          (is_valid_positionP s.rows s.cols s.board_mask)
          (s.placedBoard row col player) x.1 x.2 (3 - player)
      · rfl
      · exact absurd ((check_libertyP_iff_spec s.rows s.cols _ _ x (3 - player)
          hopp0 hvb).mp hb) hnospec
  have hs2 := s.place_stone_true_inv s2 row col player h
  subst hs2
  rcases successState_fields s row col player with ⟨hf1, _, _, _, _, hf6, hf7⟩
  have hallne : ∀ x ∈ s.deadOpponents row col player,
      getCellI (s.placedBoard row col player) x.1 x.2 ≠ 0 := by
    intro x hx
    rw [((mem_deadOpponents s row col player x).mp hx).2.1]
    exact hopp0
  have hrf := removeFold_cell (s.placedBoard row col player)
    (s.deadOpponents row col player) (deadOpponents_pairwise s row col player) hallne
  refine ⟨?_, ?_, hiff, ?_, ?_⟩
  · intro x hx hcell hnospec
    rw [hf1]
    exact hrf.1 x ((hiff x hx).mpr ⟨hcell, hnospec⟩)
  · intro x hx hcell hspec
    have hnotdead : x ∉ s.deadOpponents row col player := by
      intro hdead
      exact ((hiff x hx).mp hdead).2 hspec
    have hdist : ∀ w ∈ s.deadOpponents row col player,
        (w.1.toNat, w.2.toNat) ≠ (x.1.toNat, x.2.toNat) := by
      intro w hw
      have hwC := ((mem_deadOpponents s row col player w).mp hw).1
      have hwne : w ≠ x := fun hEq => hnotdead (hEq ▸ hw)
      rcases (mem_cellsI s.rows s.cols w).mp hwC with ⟨hw1, _, hw2, _⟩
      rcases (mem_cellsI s.rows s.cols x).mp hx with ⟨hx1, _, hx2, _⟩
      intro hEq
      apply hwne
      rcases w with ⟨w1, w2⟩
      rcases x with ⟨x1, x2⟩
      simp only [Prod.mk.injEq] at hEq ⊢
      constructor <;> omega
    rw [hf1]
    unfold GoBoard.boardAfterCaptures
    rw [hrf.2 x hdist]
    exact hcell
  · rcases hp with rfl | rfl <;> simp [capturedOf, hf6, hf7]
  · rcases hp with rfl | rfl <;> simp [capturedOf, hf6, hf7]

end IrrBoard

namespace IrrBoard

/-- Witness for C3: on the 1x2 board `[2, 0]`, Black's accepted
placement at (0,1) removes the white stone at (0,0), whose group
(just itself) has no liberty on the placed board. -/
theorem capture_correctness_witness :
    getCellI ((exCapture.place_stone 0 1 1).2).board 0 0 = 0 := by
  have hvb : ∀ r c, is_valid_positionP exCapture.rows exCapture.cols
      exCapture.board_mask r c = true →
      0 ≤ r ∧ r < (exCapture.rows : Int) ∧ 0 ≤ c ∧ c < (exCapture.cols : Int) := by
    intro r c hrc
    rcases (is_valid_positionP_iff _ _ _ _ _).mp hrc with ⟨h1, h2, h3, h4, _⟩
    exact ⟨h1, h2, h3, h4⟩
  have hno : ¬ hasLibertySpec
      (is_valid_positionP exCapture.rows exCapture.cols exCapture.board_mask)
      (exCapture.placedBoard 0 1 1) 2 (0, 0) := by
    intro hspec
    have htrue := (check_libertyP_iff_spec exCapture.rows exCapture.cols
      (is_valid_positionP exCapture.rows exCapture.cols exCapture.board_mask)
      (exCapture.placedBoard 0 1 1) (0, 0) 2 (by decide) hvb).mpr hspec
    exact absurd htrue (by decide)
  exact (capture_correctness exCapture (exCapture.place_stone 0 1 1).2 0 1 1
    (Or.inl rfl) (by decide)).1 (0, 0) (by decide) (by decide) hno

end IrrBoard

namespace IrrBoard

/-- Restores compose: only the last one matters. -/
theorem set_snapshot_set_snapshot (s : GoBoard) (a b : Snapshot) :
    (s.set_snapshot a).set_snapshot b = s.set_snapshot b := rfl

/-- Snapshotting right after a restore returns the restored snapshot. -/
theorem get_snapshot_set_snapshot (s : GoBoard) (snap : Snapshot) :
    (s.set_snapshot snap).get_snapshot = snap := rfl

/-- Restoring a state's own snapshot is the identity when the cache is
already clear. -/
theorem set_snapshot_get_snapshot (s : GoBoard) (h : s.influence_cache = none) :
    s.set_snapshot s.get_snapshot = s := by
  cases s
  simp only [GoBoard.set_snapshot, GoBoard.get_snapshot, GoBoard.mk.injEq]
  simp_all

/-- Two games with equal components are equal. -/
theorem GoGame_eq_of_parts (g1 g2 : GoGame) (h1 : g1.go_board = g2.go_board)
    (h2 : g1.history = g2.history) (h3 : g1.redo_stack = g2.redo_stack) :
    g1 = g2 := by
  cases g1
  cases g2
  simp_all

/-- Prepending to a non-empty list keeps its last element. -/
theorem getLast?_cons_ne_nil {α : Type} (x : α) (l : List α) (h : l ≠ []) :
    (x :: l).getLast? = l.getLast? := by
  cases l with
  | nil => exact absurd rfl h
  | cons y t => simp

/-- The accepted-placement shape of `handle_click`. -/
theorem placeAt_accepted (g : GoGame) (row col : Int)
    (h : (g.go_board.place_stone row col g.go_board.current_player).1 = true) :
    g.placeAt row col =
      { go_board := (g.go_board.place_stone row col g.go_board.current_player).2
        history := ((g.go_board.place_stone row col
          g.go_board.current_player).2).get_snapshot :: g.history
        redo_stack := [] } := by
  unfold GoGame.placeAt
  rcases hps : g.go_board.place_stone row col g.go_board.current_player with ⟨ok, b2⟩
  rw [hps] at h
  simp only at h
  subst h
  simp

/-- Splitting one step off an accepted run. -/
theorem acceptedRun_cons (g : GoGame) (a : Action) (rest : List Action)
    (h : g.acceptedRun (a :: rest) = true) :
    (g.applyAction a).acceptedRun rest = true ∧
    (∀ row col, a = Action.place row col →
      (g.go_board.place_stone row col g.go_board.current_player).1 = true) := by
  cases a with
  | pass =>
    refine ⟨h, ?_⟩
    intro row col hh
    cases hh
  | place row col =>
    have h2 : ((g.go_board.place_stone row col g.go_board.current_player).1 &&
        (g.applyAction (Action.place row col)).acceptedRun rest) = true := h
    rcases Bool.and_eq_true_iff.mp h2 with ⟨ha, hb⟩
    refine ⟨hb, ?_⟩
    intro row2 col2 hEq
    injection hEq with e1 e2
    subst e1
    subst e2
    exact ha

/-- The invariant an accepted run maintains: no pending redos, a clear
influence cache, the live state's snapshot on top of the history and
the initial snapshot at its bottom. -/
def histInv (initSnap : Snapshot) (g : GoGame) : Prop :=
  g.redo_stack = [] ∧ g.go_board.influence_cache = none ∧
  g.history.head? = some g.go_board.get_snapshot ∧
  g.history.getLast? = some initSnap

/-- One accepted action preserves the invariant and grows the history
by one snapshot. -/
theorem applyAction_inv (initSnap : Snapshot) (g : GoGame) (a : Action)
    (hInv : histInv initSnap g)
    (hacc : ∀ row col, a = Action.place row col →
      (g.go_board.place_stone row col g.go_board.current_player).1 = true) :
    histInv initSnap (g.applyAction a) ∧
    (g.applyAction a).history.length = g.history.length + 1 := by
  rcases hInv with ⟨hredo, hcache, hhead, hlast⟩
  have hne : g.history ≠ [] := by
    intro hh
    rw [hh] at hhead
    simp at hhead
  cases a with
  | pass =>
    refine ⟨⟨rfl, hcache, rfl, ?_⟩, by simp [GoGame.applyAction, GoGame.passAction]⟩
    show (GoBoard.get_snapshot _ :: g.history).getLast? = some initSnap
    rw [getLast?_cons_ne_nil _ _ hne]
    exact hlast
  | place row col =>
    have hok := hacc row col rfl
    rw [GoGame.applyAction, placeAt_accepted g row col hok]
    have hpair : g.go_board.place_stone row col g.go_board.current_player =
        (true, (g.go_board.place_stone row col g.go_board.current_player).2) := by
      rcases hps : g.go_board.place_stone row col g.go_board.current_player with ⟨ok, b2⟩
      rw [hps] at hok
      simp only at hok
      subst hok
      rfl
    have hcache2 : ((g.go_board.place_stone row col
        g.go_board.current_player).2).influence_cache = none := by
      rw [g.go_board.place_stone_true_inv _ row col g.go_board.current_player hpair]
      rfl
    refine ⟨⟨rfl, hcache2, rfl, ?_⟩, by simp⟩
    show (GoBoard.get_snapshot _ :: g.history).getLast? = some initSnap
    rw [getLast?_cons_ne_nil _ _ hne]
    exact hlast

/-- An accepted run preserves the invariant and grows the history by
one snapshot per action. -/
theorem applyActions_inv (initSnap : Snapshot) (g : GoGame) (acts : List Action)
    (hInv : histInv initSnap g) (hacc : g.acceptedRun acts = true) :
    histInv initSnap (g.applyActions acts) ∧
    (g.applyActions acts).history.length = g.history.length + acts.length := by
  induction acts generalizing g with
  | nil => exact ⟨hInv, rfl⟩
  | cons a rest ih =>
    rcases acceptedRun_cons g a rest hacc with ⟨hrest, haccA⟩
    rcases applyAction_inv initSnap g a hInv haccA with ⟨hInv2, hlen2⟩
    rcases ih (g.applyAction a) hInv2 hrest with ⟨hInv3, hlen3⟩
    refine ⟨hInv3, ?_⟩
    show ((g.applyAction a).applyActions rest).history.length =
      g.history.length + (rest.length + 1)
    omega

end IrrBoard

namespace IrrBoard

/-- Shape of `k` undos: the history loses its first `k` snapshots onto
the redo stack, and (for `k > 0`) the live state is the entry state
restored to the snapshot that becomes the top of the history. -/
theorem undoN_spec : ∀ (k : Nat) (g : GoGame), k + 1 ≤ g.history.length →
    (undoN k g).history = g.history.drop k ∧
    (undoN k g).redo_stack = (g.history.take k).reverse ++ g.redo_stack ∧
    ((undoN k g = g ∧ k = 0) ∨
      ∃ snap, (g.history.drop k).head? = some snap ∧
        (undoN k g).go_board = g.go_board.set_snapshot snap) := by
  intro k
  induction k with
  | zero =>
    intro g h
    exact ⟨rfl, by simp [undoN], Or.inl ⟨rfl, rfl⟩⟩
  | succ n ih =>
    intro g h
    match hh : g.history with
    | [] => rw [hh] at h; simp at h
    | [a] => rw [hh] at h; simp at h
    | a :: b :: t =>
      have hundo : g.undo_move =
          { go_board := g.go_board.set_snapshot b
            history := b :: t
            redo_stack := a :: g.redo_stack } := by
        unfold GoGame.undo_move
        rw [hh]
      have hlen : n + 1 ≤ (g.undo_move).history.length := by
        rw [hundo]
        rw [hh] at h
        simp at h ⊢
        omega
      have hstep : undoN (n + 1) g = undoN n g.undo_move := rfl
      rcases ih g.undo_move hlen with ⟨ih1, ih2, ih3⟩
      refine ⟨?_, ?_, ?_⟩
      · rw [hstep, ih1, hundo]
        rfl
      · rw [hstep, ih2, hundo]
        simp
      · rcases ih3 with ⟨hid, hn0⟩ | ⟨snap, hsnap, hset⟩
        · subst hn0
          refine Or.inr ⟨b, rfl, ?_⟩
          rw [hstep, hid, hundo]
        · refine Or.inr ⟨snap, ?_, ?_⟩
          · rw [hundo] at hsnap
            exact hsnap
          · rw [hstep, hset, hundo]
            rfl

/-- Undoing `k + 1` times is undoing `k` times and then once more. -/
theorem undoN_succ_eq : ∀ (k : Nat) (g : GoGame),
    undoN (k + 1) g = (undoN k g).undo_move := by
  intro k
  induction k with
  | zero => intro g; rfl
  | succ n ih =>
    intro g
    show undoN (n + 1) g.undo_move = (undoN (n + 1) g).undo_move
    rw [ih g.undo_move]
    rfl

/-- One redo exactly inverts one undo, provided the live state matches
the top history snapshot and the influence cache is clear. -/
theorem redo_undo_cancel (g : GoGame)
    (hhead : g.history.head? = some g.go_board.get_snapshot)
    (hcache : g.go_board.influence_cache = none)
    (hlen : 2 ≤ g.history.length) :
    (g.undo_move).redo_move = g := by
  match hh : g.history with
  | [] => rw [hh] at hlen; simp at hlen
  | [a] => rw [hh] at hlen; simp at hlen
  | a :: b :: t =>
    have hundo : g.undo_move =
        { go_board := g.go_board.set_snapshot b
          history := b :: t
          redo_stack := a :: g.redo_stack } := by
      unfold GoGame.undo_move
      rw [hh]
    have ha : a = g.go_board.get_snapshot := by
      rw [hh] at hhead
      exact Option.some.inj hhead
    rw [hundo]
    refine GoGame_eq_of_parts _ _ ?_ ?_ ?_
    · show (g.go_board.set_snapshot b).set_snapshot a = g.go_board
      rw [set_snapshot_set_snapshot, ha]
      exact set_snapshot_get_snapshot g.go_board hcache
    · show a :: b :: t = g.history
      exact hh.symm
    · rfl

/-- Redoing `k` times undoes `k` undos, for any state whose live board
matches the top history snapshot with a clear cache. -/
theorem redoN_undoN_cancel : ∀ (k : Nat) (g : GoGame),
    g.history.head? = some g.go_board.get_snapshot →
    g.go_board.influence_cache = none →
    k + 1 ≤ g.history.length →
    redoN k (undoN k g) = g := by
  intro k
  induction k with
  | zero => intro g _ _ _; rfl
  | succ n ih =>
    intro g hhead hcache hlen
    rcases undoN_spec n g (by omega) with ⟨hhist, _, hboard⟩
    have hxhead : (undoN n g).history.head? =
        some (undoN n g).go_board.get_snapshot := by
      rcases hboard with ⟨hid, hn0⟩ | ⟨snap, hsnap, hset⟩
      · rw [hid]; exact hhead
      · rw [hhist, hset, get_snapshot_set_snapshot]
        exact hsnap
    have hxcache : (undoN n g).go_board.influence_cache = none := by
      rcases hboard with ⟨hid, hn0⟩ | ⟨snap, hsnap, hset⟩
      · rw [hid]; exact hcache
      · rw [hset]; rfl
    have hxlen : 2 ≤ (undoN n g).history.length := by
      rw [hhist]
      simp
      omega
    have hcancel := redo_undo_cancel (undoN n g) hxhead hxcache hxlen
    show redoN n ((undoN (n + 1) g).redo_move) = g
    rw [undoN_succ_eq n g, hcancel]
    exact ih g hhead hcache (by omega)

/-- Dropping all but the final element of a list reaches its last
element. -/
theorem drop_length_pred_getLast {α : Type} : ∀ (N : Nat) (l : List α),
    l.length = N + 1 → ∃ z, l.drop N = [z] ∧ l.getLast? = some z := by
  intro N
  induction N with
  | zero =>
    intro l h
    cases l with
    | nil => simp at h
    | cons a t =>
      cases t with
      | nil => exact ⟨a, rfl, rfl⟩
      | cons b u => simp at h
  | succ n ih =>
    intro l h
    cases l with
    | nil => simp at h
    | cons a t =>
      have htl : t.length = n + 1 := by simpa using h
      rcases ih t htl with ⟨z, hz1, hz2⟩
      have htne : t ≠ [] := by
        intro hnil
        rw [hnil] at htl
        simp at htl
      refine ⟨z, ?_, ?_⟩
      · show t.drop n = [z]
        exact hz1
      · rw [getLast?_cons_ne_nil a t htne]
        exact hz2

/-- C4: starting from a fresh game, after any sequence of `N` accepted
actions (placements by the current player or passes), undoing `N`
times restores the live state's snapshot — `board`, both `captured`
counters, `current_player`, both last-move markers and the full
`move_order` log — to the initial empty-board snapshot, and redoing
`N` times then reproduces the final game state bit-for-bit (live
board, history and redo stack); moreover `undo_move` is a no-op
whenever only the initial snapshot remains in the history, and
`redo_move` is a no-op whenever the redo stack is empty. -/
theorem undo_redo_round_trip (mask : List (List Nat)) (acts : List Action)
    (hacc : (mkGoGame mask).acceptedRun acts = true) :
    (∀ g : GoGame, g.history.length ≤ 1 → g.undo_move = g) ∧
    (∀ g : GoGame, g.redo_stack = [] → g.redo_move = g) ∧
    (undoN acts.length ((mkGoGame mask).applyActions acts)).go_board.get_snapshot
      = (mkGoBoard mask).get_snapshot ∧
    redoN acts.length (undoN acts.length ((mkGoGame mask).applyActions acts))
      = (mkGoGame mask).applyActions acts := by
  have hInv0 : histInv (mkGoBoard mask).get_snapshot (mkGoGame mask) :=
    ⟨rfl, rfl, rfl, rfl⟩
  obtain ⟨hInvF, hlenF⟩ :=
    applyActions_inv (mkGoBoard mask).get_snapshot (mkGoGame mask) acts hInv0 hacc
  rcases hInvF with ⟨hredoF, hcacheF, hheadF, hlastF⟩
  have hlen1 : (mkGoGame mask).history.length = 1 := rfl
  have hlen : ((mkGoGame mask).applyActions acts).history.length =
      acts.length + 1 := by omega
  refine ⟨?_, ?_, ?_, ?_⟩
  · intro g hgl
    unfold GoGame.undo_move
    match hh : g.history with
    | [] => rfl
    | [a] => rfl
    | a :: b :: t =>
      rw [hh] at hgl
      simp at hgl
  · intro g hgr
    unfold GoGame.redo_move
    rw [hgr]
  · rcases undoN_spec acts.length ((mkGoGame mask).applyActions acts)
      (by omega) with ⟨hhist, _, hboard⟩
    rcases drop_length_pred_getLast acts.length
      ((mkGoGame mask).applyActions acts).history hlen with ⟨z, hz1, hz2⟩
    have hzinit : z = (mkGoBoard mask).get_snapshot := by
      rw [hz2] at hlastF
      exact Option.some.inj hlastF
    rcases hboard with ⟨hid, hn0⟩ | ⟨snap, hsnap, hset⟩
    · rw [hid]
      rw [hn0] at hz1
      have hH : ((mkGoGame mask).applyActions acts).history = [z] := by
        simpa using hz1
      rw [hH] at hheadF
      have hzget : z = ((mkGoGame mask).applyActions acts).go_board.get_snapshot :=
        Option.some.inj hheadF
      rw [← hzget]
      exact hzinit
    · rw [hset, get_snapshot_set_snapshot]
      rw [hz1] at hsnap
      have hzs : z = snap := Option.some.inj hsnap
      rw [← hzs]
      exact hzinit
  · exact redoN_undoN_cancel acts.length ((mkGoGame mask).applyActions acts)
      hheadF hcacheF (by omega)

/-- Witness for C4: on the fresh 1x2 game, the run Black-plays-(0,0)
then pass is accepted; two undos return the snapshot to the initial
one, and two redos rebuild the final state exactly. -/
theorem undo_redo_round_trip_witness :
    (mkGoGame [[1, 1]]).acceptedRun [Action.place 0 0, Action.pass] = true ∧
    (undoN 2 ((mkGoGame [[1, 1]]).applyActions
        [Action.place 0 0, Action.pass])).go_board.get_snapshot
      = (mkGoBoard [[1, 1]]).get_snapshot ∧
    redoN 2 (undoN 2 ((mkGoGame [[1, 1]]).applyActions
        [Action.place 0 0, Action.pass]))
      = (mkGoGame [[1, 1]]).applyActions [Action.place 0 0, Action.pass] :=
  ⟨by decide,
   (undo_redo_round_trip [[1, 1]] [Action.place 0 0, Action.pass] (by decide)).2.2.1,
   (undo_redo_round_trip [[1, 1]] [Action.place 0 0, Action.pass] (by decide)).2.2.2⟩
